import Mathlib

/-!
# EnlighterJS, `src/lang/delphi.js`: the Delphi rule table

The source file is a table of rule descriptors `{ regex: /.../flags, type: ... }`.
This development embeds

* the regular expressions of the table as values of `Re`, one constructor per
  piece of regular-expression syntax, so that each value can be read side by
  side with the literal it comes from;
* the meaning of such a literal: the backtracking matcher of ECMAScript
  (`run`), which yields the successful end states in the order in which the
  backtracking search reaches them;
* the rule table `setupLanguage`, in source order, with the shared fragments
  `_language_common_rules.*` (imported from another module) as a parameter;
* the Match Scanner and the Conflict Resolver the table is fed to.
-/

namespace delphi

/-! ## Texts and characters -/

/-- A text is a sequence of UTF-16 code units, indexed from 0. -/
abbrev Text := List Nat

/-- The code units of a string literal (all literals used here are ASCII). -/
def codes (s : String) : Text := s.toList.map Char.toNat

/-- The class `\w` without the `u` flag: `[A-Za-z0-9_]`. -/
def isWordChar (c : Nat) : Bool :=
  (97 ≤ c && c ≤ 122) || (65 ≤ c && c ≤ 90) || (48 ≤ c && c ≤ 57) || c == 95

/-- ECMAScript LineTerminator: LF, CR, LS, PS. -/
def isLineTerminator (c : Nat) : Bool :=
  c == 10 || c == 13 || c == 0x2028 || c == 0x2029

/-- The class `\s`: ECMAScript WhiteSpace and LineTerminator. -/
def isSpace (c : Nat) : Bool :=
  c == 9 || c == 11 || c == 12 || c == 32 || c == 0xA0 || c == 0xFEFF ||
  c == 0x1680 || (0x2000 ≤ c && c ≤ 0x200A) || c == 0x202F || c == 0x205F ||
  c == 0x3000 || isLineTerminator c

/-- Upper-case a code unit, ASCII letters only. -/
def upper (c : Nat) : Nat := if 97 ≤ c ∧ c ≤ 122 then c - 32 else c

/-- Lower-case a code unit, ASCII letters only. -/
def lower (c : Nat) : Nat := if 65 ≤ c ∧ c ≤ 90 then c + 32 else c

/-- Canonicalize of ECMAScript (no `u` flag) on the ASCII range: with the `i`
flag a code unit is upper-cased. ECMAScript never canonicalizes a code unit
above 127 to one below 128, and every pattern of the table is ASCII, so
comparing against pattern characters needs no more than this. -/
def canon (ic : Bool) (c : Nat) : Nat := if ic then upper c else c

/-! ## Regular expressions -/

/-- One member of a character class `[...]`. -/
inductive ClassItem where
  | char (c : Nat)
  | range (lo hi : Nat)
  | space
  | nonSpace
  | word
  deriving DecidableEq, Repr

/-- The regular-expression syntax used by the rule table. -/
inductive Re where
  | empty
  | char (c : Nat)
  | cls (negated : Bool) (items : List ClassItem)
  | dot
  | seq (a b : Re)
  | alt (a b : Re)
  | star (greedy : Bool) (r : Re)
  | plus (greedy : Bool) (r : Re)
  | group (k : Nat) (r : Re)
  | lookahead (r : Re)
  | lookbehind (r : Re)
  | wordBoundary
  | lineStart
  | lineEnd
  deriving Repr

/-- A literal word: its characters in sequence. -/
def lit : List Nat → Re
  | [] => .empty
  | c :: cs => .seq (.char c) (lit cs)

/-- The alternation `a|b|...` of a non-empty list of alternatives. -/
def alts : List Re → Re
  | [] => .cls false []
  | [r] => r
  | r :: rs => .alt r (alts rs)

/-- The alternation `w1|w2|...` of literal words. -/
def words (ws : List String) : Re := alts (ws.map (fun w => lit (codes w)))

/-- The concatenation of a list of pieces. -/
def cat : List Re → Re
  | [] => .empty
  | [r] => r
  | r :: rs => .seq r (cat rs)

/-- Whether a class member contains a code unit. -/
def ClassItem.has : ClassItem → Nat → Bool
  | .char c, x => x == c
  | .range lo hi, x => lo ≤ x && x ≤ hi
  | .space, x => isSpace x
  | .nonSpace, x => !isSpace x
  | .word, x => isWordChar x

/-- CharacterSetMatcher: a code unit is in the set when some member of the set
has the same canonical form; a negated class inverts the answer. -/
def classHas (ic : Bool) (negated : Bool) (items : List ClassItem) (x : Nat) : Bool :=
  let found := items.any (fun it =>
    it.has x || (ic && (it.has (upper x) || it.has (lower x))))
  if negated then !found else found

/-- A matcher state: the current offset and the captures made so far, most
recent first, each as (group number, start, end). -/
structure St where
  pos : Nat
  caps : List (Nat × Nat × Nat)
  deriving DecidableEq, Repr

/-- Consume one code unit that satisfies `p`: the one at `pos` when matching
forward, the one before `pos` when matching backward (inside a lookbehind). -/
def stepChar (t : Text) (fwd : Bool) (p : Nat → Bool) (st : St) : List St :=
  if fwd then
    match t[st.pos]? with
    | some c => if p c then [{ st with pos := st.pos + 1 }] else []
    | none => []
  else
    match st.pos with
    | 0 => []
    | q + 1 =>
      match t[q]? with
      | some c => if p c then [{ st with pos := q }] else []
      | none => []

/-- IsWordChar at an offset; offsets outside the text are not word characters. -/
def wordAt (t : Text) (i : Nat) : Bool :=
  match t[i]? with
  | some c => isWordChar c
  | none => false

/-- The assertion `\b` at offset `p`. -/
def isBoundary (t : Text) (p : Nat) : Bool :=
  (match p with
   | 0 => false
   | q + 1 => wordAt t q) != wordAt t p

/-- The assertion `^` at offset `p` (with the `m` flag also after a line terminator). -/
def isLineStart (t : Text) (ml : Bool) (p : Nat) : Bool :=
  match p with
  | 0 => true
  | q + 1 =>
    ml && (match t[q]? with
           | some c => isLineTerminator c
           | none => false)

/-- The assertion `$` at offset `p` (with the `m` flag also before a line terminator). -/
def isLineEnd (t : Text) (ml : Bool) (p : Nat) : Bool :=
  match t[p]? with
  | none => decide (p = t.length)
  | some c => ml && isLineTerminator c

/-- RepeatMatcher for `*` and `*?`: an iteration that consumes nothing is
rejected; a greedy loop tries one more iteration before stopping, a lazy loop
tries stopping first. Every iteration moves the offset, so `fuel` = text length
bounds the number of iterations. -/
def loop (body : St → List St) (greedy : Bool) : Nat → St → List St
  | 0, st => [st]
  | fuel + 1, st =>
    let more := ((body st).filter (fun s => s.pos != st.pos)).flatMap (loop body greedy fuel)
    if greedy then more ++ [st] else st :: more

/-- The backtracking matcher. `run t ic ml r fwd st` lists the states in which
a match of `r` started in state `st` can end, in the order the backtracking
search of ECMAScript tries them: the head is the match the engine reports.
`ic` and `ml` are the flags `i` and `m`; `fwd = false` is the right-to-left
direction used inside a lookbehind. The reset of captures at each iteration of
a quantifier is left out: no authored pattern has a capturing group under a
quantifier. -/
def run (t : Text) (ic ml : Bool) : Re → Bool → St → List St
  | .empty, _, st => [st]
  | .char c, fwd, st => stepChar t fwd (fun x => canon ic x == canon ic c) st
  | .cls neg items, fwd, st => stepChar t fwd (classHas ic neg items) st
  | .dot, fwd, st => stepChar t fwd (fun x => !isLineTerminator x) st
  | .seq a b, fwd, st =>
    if fwd then (run t ic ml a fwd st).flatMap (fun s => run t ic ml b fwd s)
    else (run t ic ml b fwd st).flatMap (fun s => run t ic ml a fwd s)
  | .alt a b, fwd, st => run t ic ml a fwd st ++ run t ic ml b fwd st
  | .star g r, fwd, st => loop (fun s => run t ic ml r fwd s) g t.length st
  | .plus g r, fwd, st =>
    (run t ic ml r fwd st).flatMap (loop (fun s => run t ic ml r fwd s) g t.length)
  | .group k r, fwd, st =>
    (run t ic ml r fwd st).map (fun s =>
      { s with caps := (k, min st.pos s.pos, max st.pos s.pos) :: s.caps })
  | .lookahead r, _, st =>
    match run t ic ml r true st with
    | [] => []
    | s :: _ => [{ pos := st.pos, caps := s.caps }]
  | .lookbehind r, _, st =>
    match run t ic ml r false st with
    | [] => []
    | s :: _ => [{ pos := st.pos, caps := s.caps }]
  | .wordBoundary, _, st => if isBoundary t st.pos then [st] else []
  | .lineStart, _, st => if isLineStart t ml st.pos then [st] else []
  | .lineEnd, _, st => if isLineEnd t ml st.pos then [st] else []

/-- Number of capturing groups of a pattern (non-capturing groups and
lookarounds are not constructors of their own and are not counted). -/
def Re.groupCount : Re → Nat
  | .seq a b => a.groupCount + b.groupCount
  | .alt a b => a.groupCount + b.groupCount
  | .star _ r => r.groupCount
  | .plus _ r => r.groupCount
  | .group _ r => r.groupCount + 1
  | .lookahead r => r.groupCount
  | .lookbehind r => r.groupCount
  | _ => 0

/-- Whether a pattern has a capturing group under a quantifier (`*`, `+`). -/
def Re.groupUnderQuantifier : Re → Bool
  | .seq a b => a.groupUnderQuantifier || b.groupUnderQuantifier
  | .alt a b => a.groupUnderQuantifier || b.groupUnderQuantifier
  | .star _ r => decide (0 < r.groupCount)
  | .plus _ r => decide (0 < r.groupCount)
  | .group _ r => r.groupUnderQuantifier
  | .lookahead r => r.groupUnderQuantifier
  | .lookbehind r => r.groupUnderQuantifier
  | _ => false

/-! ## Rule descriptors -/

/-- The `type` of a rule: one tag, or a list of tags, one per capturing group. -/
inductive TypeAssignment where
  | single (tag : String)
  | perGroup (tags : List String)
  deriving DecidableEq, Repr

/-- Whether a type assignment is a list of tags. -/
def TypeAssignment.isList : TypeAssignment → Bool
  | .single _ => false
  | .perGroup _ => true

/-- A rule descriptor `{ regex: /.../flags, type: ... }`. Every rule of the
table has the flag `g`; the flags `i` and `m` are recorded per rule. -/
structure Rule where
  regex : Re
  ignoreCase : Bool
  multiline : Bool
  type : TypeAssignment
  deriving Repr

/-- The shared fragments `_language_common_rules.*` the table refers to. They
are defined in `./rulesets/generic`, another module, and are a parameter here. -/
structure CommonRules where
  sqStrings : Rule
  prop : Rule
  fCalls : Rule
  mCalls : Rule
  boolean : Rule
  slashComments : Rule
  int : Rule
  floats : Rule
  bin : Rule
  hex : Rule
  octal : Rule

/-- A literal character of a pattern. -/
def ch (c : Char) : Re := .char c.toNat

/-- The class member for a literal character. -/
def only (c : Char) : ClassItem := .char c.toNat

/-- The class range `a-b`. -/
def rng (a b : Char) : ClassItem := .range a.toNat b.toNat

/-- The escape `\s` outside a class, and `\s*`, `\s+`. -/
def blank : Re := .cls false [.space]

/-- The class `[^;]`. -/
def notSemicolon : Re := .cls true [only ';']

/-- The class `[\w.]`. -/
def nameChar : Re := .cls false [.word, only '.']

/-- The class `[\s\S]`. -/
def anyChar : Re := .cls false [.space, .nonSpace]

/-- The shape `/\b(w1|w2|...)\b/gi` shared by the keyword rules. -/
def wordRule (ws : List String) (tag : String) : Rule :=
  { regex := cat [.wordBoundary, .group 1 (words ws), .wordBoundary],
    ignoreCase := true, multiline := false, type := .single tag }

/-- Control strings: `/(#[0-9]+|#\$[0-9a-fA-F]+)/g`, type `s0`. -/
def controlStrings : Rule :=
  { regex := .group 1 (.alt
      (cat [ch '#', .plus true (.cls false [rng '0' '9'])])
      (cat [ch '#', ch '$', .plus true (.cls false [rng '0' '9', rng 'a' 'f', rng 'A' 'F'])])),
    ignoreCase := false, multiline := false, type := .single "s0" }

/-- Keywords, type `k0`. -/
def keywords : Rule :=
  wordRule ["array", "class", "constructor", "destructor", "dispinterface", "exports",
    "file", "finalization", "function", "implementation", "initialization", "inline",
    "interface", "library", "object", "of", "packed", "procedure", "program", "property",
    "record", "set", "unit", "uses"] "k0"

/-- Visibility keywords: `/\b(automated|private|protected|public|published)\b/gi`, type `k0`. -/
def visibility : Rule :=
  wordRule ["automated", "private", "protected", "public", "published"] "k0"

/-- The uses rule:
`/(?:^\s*(uses)\s+|(?<=(?:uses)[^;]*)\b)([\w.]+)\s*(?:,\s*|;)/gmi`, type `['k0', 'k10']`. -/
def usesNamespaces : Rule :=
  { regex := cat [
      .alt
        (cat [.lineStart, .star true blank, .group 1 (lit (codes "uses")), .plus true blank])
        (cat [.lookbehind (cat [lit (codes "uses"), .star true notSemicolon]), .wordBoundary]),
      .group 2 (.plus true nameChar),
      .star true blank,
      .alt (cat [ch ',', .star true blank]) (ch ';')],
    ignoreCase := true, multiline := true, type := .perGroup ["k0", "k10"] }

/-- The unit-name rule: `/^\s*(library|program|unit)\s+([\w.]+)\s*;/gmi`, type `['k0', 'k10']`. -/
def unitNames : Rule :=
  { regex := cat [.lineStart, .star true blank,
      .group 1 (words ["library", "program", "unit"]),
      .plus true blank, .group 2 (.plus true nameChar), .star true blank, ch ';'],
    ignoreCase := true, multiline := true, type := .perGroup ["k0", "k10"] }

/-- Control keywords, type `k1`. -/
def controlKeywords : Rule :=
  wordRule ["asm", "begin", "case", "do", "downto", "else", "end", "except", "finally",
    "for", "goto", "if", "raise", "repeat", "then", "to", "try", "until", "while", "with"] "k1"

/-- Variable / type initialization: `/\b(const|resourcestring|type|threadvar|var)\b/gi`, type `k2`. -/
def initialization : Rule :=
  wordRule ["const", "resourcestring", "type", "threadvar", "var"] "k2"

/-- Operators, type `k3`. -/
def operators : Rule :=
  wordRule ["and", "as", "div", "in", "is", "mod", "not", "or", "shl", "shr", "xor"] "k3"

/-- Directives, type `k4`. -/
def directives : Rule :=
  wordRule ["absolute", "abstract", "assembler", "cdecl", "contains", "default", "delayed",
    "deprecated", "dispid", "dynamic", "experimental", "export", "external", "final",
    "forward", "helper", "implements", "inline", "library", "local", "message", "nodefault",
    "operator", "overload", "override", "package", "pascal", "platform", "read", "readonly",
    "reference", "register", "reintroduce", "requires", "safecall", "sealed", "static",
    "stdcall", "stored", "strict", "unsafe", "varargs", "virtual", "winapi", "write",
    "writeonly"] "k4"

/-- The index directive: `/(?<=\bproperty[^;]*)\b(index)\b(?=[^;]*)/gi`, type `k4`. -/
def indexDirective : Rule :=
  { regex := cat [
      .lookbehind (cat [.wordBoundary, lit (codes "property"), .star true notSemicolon]),
      .wordBoundary, .group 1 (lit (codes "index")), .wordBoundary,
      .lookahead (.star true notSemicolon)],
    ignoreCase := true, multiline := false, type := .single "k4" }

/-- The name directive: `/(?<=\bexports[^;]*)\b(name)\b(?=[^;]*)/gmi`, type `k4`. -/
def nameDirective : Rule :=
  { regex := cat [
      .lookbehind (cat [.wordBoundary, lit (codes "exports"), .star true notSemicolon]),
      .wordBoundary, .group 1 (lit (codes "name")), .wordBoundary,
      .lookahead (.star true notSemicolon)],
    ignoreCase := true, multiline := true, type := .single "k4" }

/-- Integer types, type `k5`. -/
def integerTypes : Rule :=
  wordRule ["byte", "cardinal", "fixedint", "fixeduint", "int8", "int16", "int32", "int64",
    "integer", "longint", "longword", "nativeint", "nativeuint", "shortint", "smallint",
    "uint8", "uint16", "uint32", "uint64", "word"] "k5"

/-- Character and string types, type `k5`. -/
def stringTypes : Rule :=
  wordRule ["ansichar", "ansistring", "char", "ucs2char", "ucs4char", "shortstring",
    "string", "unicodestring", "widechar", "widestring"] "k5"

/-- Boolean types, type `k5`. -/
def booleanTypes : Rule :=
  wordRule ["boolean", "bytebool", "longbool", "wordbool"] "k5"

/-- Real types, type `k5`. -/
def realTypes : Rule :=
  wordRule ["comp", "currency", "double", "extended", "real", "real48", "single"] "k5"

/-- Labels: `/\b(label)\b/gi`, type `k6`. -/
def labels : Rule := wordRule ["label"] "k6"

/-- The qualifier rule: `/(?<=\([^)]*)\b(const|var|out)\b(?=[^\)]*\))/gmi`, type `k8`. -/
def qualifiers : Rule :=
  { regex := cat [
      .lookbehind (cat [ch '(', .star true (.cls true [only ')'])]),
      .wordBoundary, .group 1 (words ["const", "var", "out"]), .wordBoundary,
      .lookahead (cat [.star true (.cls true [only ')']), ch ')'])],
    ignoreCase := true, multiline := true, type := .single "k8" }

/-- Special inheritance: `/\b(inherited|self)\b/gi`, type `k9`. -/
def inheritance : Rule := wordRule ["inherited", "self"] "k9"

/-- The constant nil: `/\b(nil)\b/gi`, type `e1`. -/
def nilConstant : Rule := wordRule ["nil"] "e1"

/-- Compiler directives: `/(\{\$[\s\S]*?\})/g`, type `e4`. -/
def compilerDirectives : Rule :=
  { regex := .group 1 (cat [ch '\x7b', ch '$', .star false anyChar, ch '\x7d']),
    ignoreCase := false, multiline := false, type := .single "e4" }

/-- Block comments: `/(\{[\s\S]*?\}|\(\*[\s\S]*?\))/g`, type `c1`. -/
def blockComments : Rule :=
  { regex := .group 1 (.alt
      (cat [ch '\x7b', .star false anyChar, ch '\x7d'])
      (cat [ch '(', ch '*', .star false anyChar, ch ')'])),
    ignoreCase := false, multiline := false, type := .single "c1" }

/-- Doc comments: `/(?:^|[^\\])(\/\/\/.*)$/gm`, type `c0`. -/
def docComments : Rule :=
  { regex := cat [.alt .lineStart (.cls true [only '\\']),
      .group 1 (cat [ch '/', ch '/', ch '/', .star true .dot]), .lineEnd],
    ignoreCase := false, multiline := true, type := .single "c0" }

/-- Brackets: `/[[\]()<>]+/g`, type `g1`. -/
def brackets : Rule :=
  { regex := .plus true (.cls false [only '[', only ']', only '(', only ')', only '<', only '>']),
    ignoreCase := false, multiline := false, type := .single "g1" }

/-- The rule table built by `setupLanguage`, in source order; a rule's position
in this list is its priority index. -/
def setupLanguage (_language_common_rules : CommonRules) : List Rule :=
  [ _language_common_rules.sqStrings,
    controlStrings,
    _language_common_rules.prop,
    keywords,
    visibility,
    usesNamespaces,
    unitNames,
    controlKeywords,
    initialization,
    operators,
    directives,
    indexDirective,
    nameDirective,
    integerTypes,
    stringTypes,
    booleanTypes,
    realTypes,
    labels,
    qualifiers,
    inheritance,
    _language_common_rules.fCalls,
    _language_common_rules.mCalls,
    _language_common_rules.boolean,
    nilConstant,
    compilerDirectives,
    _language_common_rules.slashComments,
    blockComments,
    docComments,
    _language_common_rules.int,
    _language_common_rules.floats,
    _language_common_rules.bin,
    _language_common_rules.hex,
    _language_common_rules.octal,
    brackets ]

/-- The rules written out in `delphi.js` itself, with their priority index. -/
def authoredRules : List (Nat × Rule) :=
  [ (1, controlStrings), (3, keywords), (4, visibility), (5, usesNamespaces), (6, unitNames),
    (7, controlKeywords), (8, initialization), (9, operators), (10, directives),
    (11, indexDirective), (12, nameDirective), (13, integerTypes), (14, stringTypes),
    (15, booleanTypes), (16, realTypes), (17, labels), (18, qualifiers), (19, inheritance),
    (23, nilConstant), (24, compilerDirectives), (26, blockComments), (27, docComments),
    (33, brackets) ]

/-! ## Match Scanner -/

/-- Modelled from the spec: a Match, the candidate result of one rule: start and
end offset (half-open), token type and the priority index of the rule. -/
structure Match where
  start : Nat
  stop : Nat
  type : String
  rule : Nat
  deriving DecidableEq, Repr

/-- One match attempt of a rule at offset `p`: the end state the backtracking
search reports, if any. -/
def matchAt (r : Rule) (t : Text) (p : Nat) : Option St :=
  (run t r.ignoreCase r.multiline r.regex true { pos := p, caps := [] }).head?

/-- Try the offsets `p, p+1, ...`, `n` of them, and report the first match. -/
def findFrom (r : Rule) (t : Text) : Nat → Nat → Option (Nat × St)
  | 0, _ => none
  | n + 1, p =>
    match matchAt r t p with
    | some s => some (p, s)
    | none => findFrom r t n (p + 1)

/-- The leftmost match that starts at or after `lastIndex` (offsets up to the
end of the text are tried). -/
def exec (r : Rule) (t : Text) (lastIndex : Nat) : Option (Nat × St) :=
  findFrom r t (t.length + 1 - lastIndex) lastIndex

/-- The span of capturing group `k` in a final state. -/
def capture (k : Nat) (caps : List (Nat × Nat × Nat)) : Option (Nat × Nat) :=
  (caps.find? (fun c => c.1 == k)).map (fun c => c.2)

/-- Modelled from the spec: the Matches one pattern match gives rise to (the
scanner is not part of `delphi.js`). A single-tag rule yields the pattern
match itself; a multi-group rule yields one Match per non-empty capturing
group, with that group's span and tag. -/
def emit (r : Rule) (idx : Nat) (p : Nat) (s : St) : List Match :=
  match r.type with
  | .single tag => [{ start := p, stop := s.pos, type := tag, rule := idx }]
  | .perGroup tags =>
    tags.enum.filterMap (fun it =>
      match capture (it.1 + 1) s.caps with
      | some (a, b) => if a < b then some { start := a, stop := b, type := it.2, rule := idx } else none
      | none => none)

/-- Modelled from the spec: the scan loop of the Match Scanner. The rule is
matched again and again, each search starting where the previous match ended
(one further after an empty match), so the matches of one rule do not overlap. -/
def scanLoop (r : Rule) (idx : Nat) (t : Text) : Nat → Nat → List Match
  | 0, _ => []
  | fuel + 1, lastIndex =>
    match exec r t lastIndex with
    | none => []
    | some (p, s) =>
      emit r idx p s ++ scanLoop r idx t fuel (if p < s.pos then s.pos else p + 1)

/-- Modelled from the spec: all Matches of one rule over the whole text. Each
round of the loop moves on by at least one offset, so `length + 1` rounds
reach the end of the text. -/
def scanRule (r : Rule) (idx : Nat) (t : Text) : List Match :=
  scanLoop r idx t (t.length + 1) 0

/-- Modelled from the spec: `scan(compiledRuleSet, text)`, the per-rule lists of
Matches, each rule under its position in the rule set. -/
def scan (rules : List Rule) (t : Text) : List (List Match) :=
  rules.enum.map (fun it => scanRule it.2 it.1 t)

/-! ## Conflict Resolver -/

/-- Modelled from the spec: a Token of the output stream; `type = none` is the
plain marker. -/
structure Token where
  start : Nat
  stop : Nat
  type : Option String
  deriving DecidableEq, Repr

/-- Modelled from the spec: whether `a` goes before `b` in the merge: smaller
start offset, or the same start and a smaller priority index. The length plays
no part. -/
def before (a b : Match) : Bool :=
  a.start < b.start || (a.start == b.start && a.rule < b.rule)

/-- Modelled from the spec: the candidate that goes before all others. -/
def pick : List Match → Option Match
  | [] => none
  | m :: ms =>
    match pick ms with
    | none => some m
    | some b => if before b m then some b else some m

/-- Modelled from the spec: the Matches still eligible at offset `pos`: those that
begin at or after `pos`; a Match of no characters is never a Token. -/
def candidates (ms : List Match) (pos : Nat) : List Match :=
  ms.filter (fun m => pos ≤ m.start && m.start < m.stop)

/-- Modelled from the spec: the merge loop from offset `pos`. The first
eligible Match in the order `before` is accepted in full, the gap before it is
emitted as plain text, and resolution continues at its end, which discards
every Match overlapping it. -/
def mergeFrom (ms : List Match) (len : Nat) : Nat → Nat → List Token
  | 0, _ => []
  | fuel + 1, pos =>
    if len ≤ pos then []
    else
      match pick (candidates ms pos) with
      | none => [{ start := pos, stop := len, type := none }]
      | some m =>
        (if pos < m.start then [{ start := pos, stop := m.start, type := none }] else []) ++
          { start := m.start, stop := m.stop, type := some m.type } ::
            mergeFrom ms len fuel m.stop

/-- Modelled from the spec: `merge(per-rule Match lists, text length)`. -/
def merge (perRule : List (List Match)) (len : Nat) : List Token :=
  mergeFrom perRule.flatten len (len + 1) 0

/-- Modelled from the spec: tokenize a text with the Delphi rule table. -/
def tokenize (_language_common_rules : CommonRules) (t : Text) : List Token :=
  merge (scan (setupLanguage _language_common_rules) t) t.length

/-- Modelled from the spec: the registration errors of the Rule Compiler. -/
inductive RegistrationError where
  | InvalidPattern (index : Nat)
  | GroupArityMismatch
  | UnknownFragment
  deriving DecidableEq, Repr

/-- Modelled from the spec: the arity validation of the Rule Compiler (the
compiler is not part of `delphi.js`). A list-form type assignment must have as
many tags as the pattern has capturing groups; `none` means the rule passes. -/
def arityError (r : Rule) : Option RegistrationError :=
  match r.type with
  | .single _ => none
  | .perGroup tags =>
    if tags.length = r.regex.groupCount then none else some .GroupArityMismatch

/-- A sample fragment library, to instantiate the parameter of `setupLanguage`:
quoted strings `/('[^']*')/g`, member access `/\.(\w+)/g`, calls
`/\b(\w+)(?=\()/g` and `/\.(\w+)(?=\()/g`, `/\b(true|false)\b/gi`, line comments
`/(\/\/.*)$/gm`, and numbers `/\b([0-9]+)\b/g`, `/\b([0-9]+\.[0-9]+)\b/g`,
`/\b(0b[01]+)\b/gi`, `/\b(0x[0-9a-f]+)\b/gi`, `/\b(0o[0-7]+)\b/gi`. -/
def sampleCommonRules : CommonRules :=
  let digits := Re.plus true (.cls false [rng '0' '9'])
  let number (body : Re) (ic : Bool) (tag : String) : Rule :=
    { regex := cat [.wordBoundary, .group 1 body, .wordBoundary],
      ignoreCase := ic, multiline := false, type := .single tag }
  { sqStrings :=
      { regex := .group 1 (cat [ch (Char.ofNat 39), .star true (.cls true [.char 39]),
          ch (Char.ofNat 39)]),
        ignoreCase := false, multiline := false, type := .single "s0" },
    prop :=
      { regex := cat [ch '.', .group 1 (.plus true (.cls false [.word]))],
        ignoreCase := false, multiline := false, type := .single "m3" },
    fCalls :=
      { regex := cat [.wordBoundary, .group 1 (.plus true (.cls false [.word])),
          .lookahead (ch '(')],
        ignoreCase := false, multiline := false, type := .single "m0" },
    mCalls :=
      { regex := cat [ch '.', .group 1 (.plus true (.cls false [.word])), .lookahead (ch '(')],
        ignoreCase := false, multiline := false, type := .single "m1" },
    boolean := wordRule ["true", "false"] "e0",
    slashComments :=
      { regex := cat [.group 1 (cat [ch '/', ch '/', .star true .dot]), .lineEnd],
        ignoreCase := false, multiline := true, type := .single "c0" },
    int := number digits false "n1",
    floats := number (cat [digits, ch '.', digits]) false "n0",
    bin := number (cat [ch '0', ch 'b', .plus true (.cls false [rng '0' '1'])]) true "n2",
    hex := number (cat [ch '0', ch 'x',
      .plus true (.cls false [rng '0' '9', rng 'a' 'f'])]) true "n2",
    octal := number (cat [ch '0', ch 'o', .plus true (.cls false [rng '0' '7'])]) true "n4" }

/-- The fragment references of the table, with their priority index. -/
def commonSlots (_language_common_rules : CommonRules) : List (Nat × Rule) :=
  [ (0, _language_common_rules.sqStrings), (2, _language_common_rules.prop),
    (20, _language_common_rules.fCalls), (21, _language_common_rules.mCalls),
    (22, _language_common_rules.boolean), (25, _language_common_rules.slashComments),
    (28, _language_common_rules.int), (29, _language_common_rules.floats),
    (30, _language_common_rules.bin), (31, _language_common_rules.hex),
    (32, _language_common_rules.octal) ]

/-! ## Descriptions used in the statements -/

/-- The code unit at offset `k` exists and satisfies `p`. -/
def holdsAt (t : Text) (p : Nat → Bool) (k : Nat) : Bool :=
  match t[k]? with
  | some x => p x
  | none => false

/-- The code unit at offset `k` exists and equals `c` up to the canonical form. -/
def charAt (t : Text) (ic : Bool) (c : Nat) (k : Nat) : Bool :=
  holdsAt t (fun x => canon ic x == canon ic c) k

/-- The word `w` stands at offset `p` of the text, up to the canonical form. -/
def litAt (t : Text) (ic : Bool) : List Nat → Nat → Bool
  | [], _ => true
  | c :: cs, p => charAt t ic c p && litAt t ic cs (p + 1)

/-- The characters at offset `p` spell the word `w`, ignoring case: the
`w.length` characters from `p` on exist, and upper-cased they are `w` upper-cased. -/
def spells (t : Text) (w : String) (p : Nat) : Prop :=
  ((t.drop p).take w.length).map upper = (codes w).map upper

/-- No code unit `c` at the offsets `a ≤ k < b` of the text. -/
def freeOf (t : Text) (c : Nat) (a b : Nat) : Prop :=
  ∀ k, a ≤ k → k < b → t[k]? ≠ some c

/-- The input `{$IFDEF DEBUG}`. -/
def directiveInput : Text := codes "\x7b$IFDEF DEBUG\x7d"

/-- The input `{ a plain comment }`. -/
def commentInput : Text := codes "\x7b a plain comment \x7d"

/-- The input `procedure Foo(const A: Integer);`. -/
def qualifierInput : Text := codes "procedure Foo(const A: Integer);"

/-! ## The matcher on words and on loops over one character -/

theorem holdsAt_of_none {t : Text} {p : Nat → Bool} {k : Nat} (h : t[k]? = none) :
    holdsAt t p k = false := by
  simp [holdsAt, h]

theorem holdsAt_of_some {t : Text} {p : Nat → Bool} {k x : Nat} (h : t[k]? = some x) :
    holdsAt t p k = p x := by
  simp [holdsAt, h]

theorem stepChar_forward (t : Text) (p : Nat → Bool) (st : St) :
    stepChar t true p st =
      if holdsAt t p st.pos then [{ pos := st.pos + 1, caps := st.caps }] else [] := by
  simp only [stepChar, if_true]
  rcases h : t[st.pos]? with _ | x
  · simp [holdsAt_of_none h]
  · simp [holdsAt_of_some h]

theorem stepChar_backward (t : Text) (p : Nat → Bool) (st : St) :
    stepChar t false p st =
      if 1 ≤ st.pos ∧ holdsAt t p (st.pos - 1) = true
      then [{ pos := st.pos - 1, caps := st.caps }] else [] := by
  simp only [stepChar, Bool.false_eq_true, if_false]
  rcases h : st.pos with _ | q
  · simp
  · simp only [Nat.add_sub_cancel, Nat.le_add_left, true_and]
    rcases h : t[q]? with _ | x
    · simp [holdsAt_of_none h]
    · simp [holdsAt_of_some h]

theorem run_lit_forward (t : Text) (ic ml : Bool) (w : List Nat) (st : St) :
    run t ic ml (lit w) true st =
      if litAt t ic w st.pos then [{ pos := st.pos + w.length, caps := st.caps }] else [] := by
  induction w generalizing st with
  | nil => simp [lit, run, litAt]
  | cons c cs ih =>
    simp only [lit, run, litAt, charAt, stepChar_forward, if_true]
    by_cases hx : holdsAt t (fun x => canon ic x == canon ic c) st.pos = true
    · simp [hx, ih, Nat.add_assoc, Nat.add_comm 1]
    · simp [hx]

theorem run_lit_backward (t : Text) (ic ml : Bool) (w : List Nat) (st : St) :
    run t ic ml (lit w) false st =
      if w.length ≤ st.pos ∧ litAt t ic w (st.pos - w.length) = true
      then [{ pos := st.pos - w.length, caps := st.caps }] else [] := by
  induction w generalizing st with
  | nil => simp [lit, run, litAt]
  | cons c cs ih =>
    simp only [lit, run, litAt, charAt, Bool.false_eq_true, if_false, ih, stepChar_backward]
    by_cases h1 : cs.length ≤ st.pos ∧ litAt t ic cs (st.pos - cs.length) = true
    · obtain ⟨hl, hlit⟩ := h1
      simp only [hl, hlit, and_self, if_true, List.flatMap_cons, List.flatMap_nil,
        List.append_nil, List.length_cons]
      by_cases h2 : cs.length + 1 ≤ st.pos
      · have e1 : st.pos - cs.length - 1 = st.pos - (cs.length + 1) := by omega
        have e2 : st.pos - (cs.length + 1) + 1 = st.pos - cs.length := by omega
        have e3 : 1 ≤ st.pos - cs.length := by omega
        simp [e1, e2, e3, h2, hlit]
      · have e3 : ¬ (1 ≤ st.pos - cs.length) := by omega
        simp [e3, h2]
    · have h3 : ¬ (cs.length + 1 ≤ st.pos ∧
          (holdsAt t (fun x => canon ic x == canon ic c) (st.pos - (cs.length + 1)) &&
            litAt t ic cs (st.pos - (cs.length + 1) + 1)) = true) := by
        intro ⟨h2, h3⟩
        apply h1
        refine ⟨by omega, ?_⟩
        have : st.pos - (cs.length + 1) + 1 = st.pos - cs.length := by omega
        rw [this] at h3
        simp only [Bool.and_eq_true] at h3
        exact h3.2
      rw [if_neg h1, List.length_cons, if_neg h3]
      rfl
theorem St.eq_of {s st : St} (h1 : s.pos = st.pos) (h2 : s.caps = st.caps) : s = st := by
  cases s; cases st; simp_all

theorem mem_loop_backward (t : Text) (p : Nat → Bool) (g : Bool) (fuel : Nat) (st s : St) :
    s ∈ loop (stepChar t false p) g fuel st ↔
      s.caps = st.caps ∧ s.pos ≤ st.pos ∧ st.pos - s.pos ≤ fuel ∧
        ∀ k, s.pos ≤ k → k < st.pos → holdsAt t p k = true := by
  induction fuel generalizing st with
  | zero =>
    simp only [loop, List.mem_singleton]
    constructor
    · rintro rfl
      exact ⟨rfl, le_refl _, by omega, fun k h1 h2 => by omega⟩
    · rintro ⟨h1, h2, h3, _⟩
      exact St.eq_of (by omega) h1
  | succ n ih =>
    have hmem : s ∈ loop (stepChar t false p) g (n + 1) st ↔
        s = st ∨ s ∈ ((stepChar t false p st).filter (fun x => x.pos != st.pos)).flatMap
          (loop (stepChar t false p) g n) := by
      cases g <;> simp [loop, or_comm]
    rw [hmem, stepChar_backward]
    by_cases hstep : 1 ≤ st.pos ∧ holdsAt t p (st.pos - 1) = true
    · have hne : (st.pos - 1 != st.pos) = true := by
        have := hstep.1
        simp only [bne_iff_ne, ne_eq]; omega
      simp only [hstep, and_self, if_true, List.filter_cons, hne, List.filter_nil,
        List.flatMap_cons, List.flatMap_nil, List.append_nil, ih]
      constructor
      · rintro (rfl | ⟨h1, h2, h3, h4⟩)
        · exact ⟨rfl, le_refl _, by omega, fun k h1 h2 => by omega⟩
        · refine ⟨h1, by omega, by omega, fun k hk1 hk2 => ?_⟩
          by_cases hk : k = st.pos - 1
          · rw [hk]; exact hstep.2
          · exact h4 k hk1 (by omega)
      · rintro ⟨h1, h2, h3, h4⟩
        by_cases he : s.pos = st.pos
        · exact Or.inl (St.eq_of he h1)
        · refine Or.inr ⟨h1, by omega, by omega, fun k hk1 hk2 => ?_⟩
          exact h4 k hk1 (by omega)
    · simp only [hstep, Bool.false_eq_true, if_false, List.filter_nil, List.flatMap_nil, List.not_mem_nil, or_false]
      constructor
      · rintro rfl
        exact ⟨rfl, le_refl _, by omega, fun k h1 h2 => by omega⟩
      · rintro ⟨h1, h2, h3, h4⟩
        by_cases he : s.pos = st.pos
        · exact St.eq_of he h1
        · exact absurd ⟨by omega, h4 (st.pos - 1) (by omega) (by omega)⟩ hstep

theorem mem_loop_forward (t : Text) (p : Nat → Bool) (g : Bool) (fuel : Nat) (st s : St) :
    s ∈ loop (stepChar t true p) g fuel st ↔
      s.caps = st.caps ∧ st.pos ≤ s.pos ∧ s.pos - st.pos ≤ fuel ∧
        ∀ k, st.pos ≤ k → k < s.pos → holdsAt t p k = true := by
  induction fuel generalizing st with
  | zero =>
    simp only [loop, List.mem_singleton]
    constructor
    · rintro rfl
      exact ⟨rfl, le_refl _, by omega, fun k h1 h2 => by omega⟩
    · rintro ⟨h1, h2, h3, _⟩
      exact St.eq_of (by omega) h1
  | succ n ih =>
    have hmem : s ∈ loop (stepChar t true p) g (n + 1) st ↔
        s = st ∨ s ∈ ((stepChar t true p st).filter (fun x => x.pos != st.pos)).flatMap
          (loop (stepChar t true p) g n) := by
      cases g <;> simp [loop, or_comm]
    rw [hmem, stepChar_forward]
    by_cases hstep : holdsAt t p st.pos = true
    · have hne : (st.pos + 1 != st.pos) = true := by
        simp only [bne_iff_ne, ne_eq]; omega
      simp only [hstep, if_true, List.filter_cons, hne, List.filter_nil,
        List.flatMap_cons, List.flatMap_nil, List.append_nil, ih]
      constructor
      · rintro (rfl | ⟨h1, h2, h3, h4⟩)
        · exact ⟨rfl, le_refl _, by omega, fun k h1 h2 => by omega⟩
        · refine ⟨h1, by omega, by omega, fun k hk1 hk2 => ?_⟩
          by_cases hk : k = st.pos
          · rw [hk]; exact hstep
          · exact h4 k (by omega) hk2
      · rintro ⟨h1, h2, h3, h4⟩
        by_cases he : s.pos = st.pos
        · exact Or.inl (St.eq_of he h1)
        · refine Or.inr ⟨h1, by omega, by omega, fun k hk1 hk2 => ?_⟩
          exact h4 k (by omega) hk2
    · simp only [hstep, Bool.false_eq_true, if_false, List.filter_nil, List.flatMap_nil, List.not_mem_nil, or_false]
      constructor
      · rintro rfl
        exact ⟨rfl, le_refl _, by omega, fun k h1 h2 => by omega⟩
      · rintro ⟨h1, h2, h3, h4⟩
        by_cases he : s.pos = st.pos
        · exact St.eq_of he h1
        · exact absurd (h4 st.pos (by omega) (by omega)) hstep

/-! ## Patterns without capturing groups leave the captures alone -/

theorem caps_of_mem_stepChar {t : Text} {fwd : Bool} {p : Nat → Bool} {st s : St}
    (h : s ∈ stepChar t fwd p st) : s.caps = st.caps := by
  cases fwd
  · rw [stepChar_backward] at h
    split at h
    · simp only [List.mem_singleton] at h; rw [h]
    · simp at h
  · rw [stepChar_forward] at h
    split at h
    · simp only [List.mem_singleton] at h; rw [h]
    · simp at h

theorem caps_of_mem_loop {body : St → List St} {g : Bool}
    (hbody : ∀ a b, b ∈ body a → b.caps = a.caps) :
    ∀ (fuel : Nat) (st s : St), s ∈ loop body g fuel st → s.caps = st.caps := by
  intro fuel
  induction fuel with
  | zero =>
    intro st s h
    simp only [loop, List.mem_singleton] at h
    rw [h]
  | succ n ih =>
    intro st s h
    have h2 : s = st ∨ s ∈ ((body st).filter (fun x => x.pos != st.pos)).flatMap
        (loop body g n) := by
      cases g <;> simpa [loop, or_comm] using h
    rcases h2 with rfl | h2
    · rfl
    · simp only [List.mem_flatMap, List.mem_filter] at h2
      obtain ⟨a, ⟨ha, _⟩, hs⟩ := h2
      rw [ih a s hs, hbody st a ha]

theorem caps_of_mem_run (t : Text) (ic ml : Bool) :
    ∀ (r : Re) (fwd : Bool) (st s : St), r.groupCount = 0 →
      s ∈ run t ic ml r fwd st → s.caps = st.caps := by
  intro r
  induction r with
  | empty => intro fwd st s _ h; simp only [run, List.mem_singleton] at h; rw [h]
  | char c => intro fwd st s _ h; exact caps_of_mem_stepChar h
  | cls neg items => intro fwd st s _ h; exact caps_of_mem_stepChar h
  | dot => intro fwd st s _ h; exact caps_of_mem_stepChar h
  | seq a b iha ihb =>
    intro fwd st s hg h
    simp only [Re.groupCount, Nat.add_eq_zero] at hg
    cases fwd
    · simp only [run, Bool.false_eq_true, if_false, List.mem_flatMap] at h
      obtain ⟨x, hx, hs⟩ := h
      rw [iha _ _ _ hg.1 hs, ihb _ _ _ hg.2 hx]
    · simp only [run, if_true, List.mem_flatMap] at h
      obtain ⟨x, hx, hs⟩ := h
      rw [ihb _ _ _ hg.2 hs, iha _ _ _ hg.1 hx]
  | alt a b iha ihb =>
    intro fwd st s hg h
    simp only [Re.groupCount, Nat.add_eq_zero] at hg
    simp only [run, List.mem_append] at h
    rcases h with h | h
    · exact iha _ _ _ hg.1 h
    · exact ihb _ _ _ hg.2 h
  | star g r ih =>
    intro fwd st s hg h
    simp only [Re.groupCount] at hg
    simp only [run] at h
    exact caps_of_mem_loop (fun a b hb => ih fwd a b hg hb) _ _ _ h
  | plus g r ih =>
    intro fwd st s hg h
    simp only [Re.groupCount] at hg
    simp only [run, List.mem_flatMap] at h
    obtain ⟨x, hx, hs⟩ := h
    rw [caps_of_mem_loop (fun a b hb => ih fwd a b hg hb) _ _ _ hs, ih _ _ _ hg hx]
  | group k r _ => intro fwd st s hg _; simp [Re.groupCount] at hg
  | lookahead r ih =>
    intro fwd st s hg h
    simp only [Re.groupCount] at hg
    simp only [run] at h
    split at h
    · simp at h
    · rename_i x xs hx
      simp only [List.mem_singleton] at h
      rw [h]
      exact ih true st x hg (by rw [hx]; exact List.mem_cons_self _ _)
  | lookbehind r ih =>
    intro fwd st s hg h
    simp only [Re.groupCount] at hg
    simp only [run] at h
    split at h
    · simp at h
    · rename_i x xs hx
      simp only [List.mem_singleton] at h
      rw [h]
      exact ih false st x hg (by rw [hx]; exact List.mem_cons_self _ _)
  | wordBoundary =>
    intro fwd st s _ h
    simp only [run] at h
    split at h
    · simp only [List.mem_singleton] at h; rw [h]
    · simp at h
  | lineStart =>
    intro fwd st s _ h
    simp only [run] at h
    split at h
    · simp only [List.mem_singleton] at h; rw [h]
    · simp at h
  | lineEnd =>
    intro fwd st s _ h
    simp only [run] at h
    split at h
    · simp only [List.mem_singleton] at h; rw [h]
    · simp at h

theorem run_lookbehind (t : Text) (ic ml : Bool) (r : Re) (fwd : Bool) (st : St)
    (hg : r.groupCount = 0) :
    run t ic ml (.lookbehind r) fwd st =
      if (run t ic ml r false st).isEmpty then [] else [st] := by
  simp only [run]
  split
  · rename_i h; simp [h]
  · rename_i x xs h
    have := caps_of_mem_run t ic ml r false st x hg (by rw [h]; exact List.mem_cons_self _ _)
    simp [h, this]

theorem run_lookahead (t : Text) (ic ml : Bool) (r : Re) (fwd : Bool) (st : St)
    (hg : r.groupCount = 0) :
    run t ic ml (.lookahead r) fwd st =
      if (run t ic ml r true st).isEmpty then [] else [st] := by
  simp only [run]
  split
  · rename_i h; simp [h]
  · rename_i x xs h
    have := caps_of_mem_run t ic ml r true st x hg (by rw [h]; exact List.mem_cons_self _ _)
    simp [h, this]

/-! ## The shape `(?<=a)\b(w)\b(?=b)` of the index and name rules -/

theorem run_seq_forward (t : Text) (ic ml : Bool) (a b : Re) (st : St) :
    run t ic ml (.seq a b) true st =
      (run t ic ml a true st).flatMap (fun s => run t ic ml b true s) := by
  simp [run]

theorem run_seq_backward (t : Text) (ic ml : Bool) (a b : Re) (st : St) :
    run t ic ml (.seq a b) false st =
      (run t ic ml b false st).flatMap (fun s => run t ic ml a false s) := by
  simp [run]

theorem run_wordBoundary (t : Text) (ic ml : Bool) (fwd : Bool) (st : St) :
    run t ic ml .wordBoundary fwd st = if isBoundary t st.pos then [st] else [] := by
  simp [run]

theorem run_group (t : Text) (ic ml : Bool) (k : Nat) (r : Re) (fwd : Bool) (st : St) :
    run t ic ml (.group k r) fwd st =
      (run t ic ml r fwd st).map (fun s =>
        { s with caps := (k, min st.pos s.pos, max st.pos s.pos) :: s.caps }) := by
  simp [run]

theorem run_contextWord (t : Text) (ic ml : Bool) (a b : Re) (k : Nat) (w : List Nat) (st : St)
    (ha : a.groupCount = 0) (hb : b.groupCount = 0) :
    run t ic ml
        (cat [.lookbehind a, .wordBoundary, .group k (lit w), .wordBoundary, .lookahead b])
        true st =
      if (!(run t ic ml a false st).isEmpty) && isBoundary t st.pos && litAt t ic w st.pos &&
          isBoundary t (st.pos + w.length) &&
          !(run t ic ml b true
              { pos := st.pos + w.length,
                caps := (k, st.pos, st.pos + w.length) :: st.caps }).isEmpty
      then [{ pos := st.pos + w.length, caps := (k, st.pos, st.pos + w.length) :: st.caps }]
      else [] := by
  simp only [cat, run_seq_forward, run_wordBoundary, run_group,
    run_lookbehind t ic ml a true st ha, run_lit_forward]
  by_cases h1 : (run t ic ml a false st).isEmpty = true
  · simp [h1]
  by_cases h2 : isBoundary t st.pos = true
  swap
  · simp [h1, h2]
  by_cases h3 : litAt t ic w st.pos = true
  swap
  · simp [h1, h2, h3]
  by_cases h4 : isBoundary t (st.pos + w.length) = true
  swap
  · simp [h1, h2, h3, h4]
  simp only [h1, h2, h3, h4, Bool.false_eq_true, if_false, if_true, List.flatMap_cons,
    List.flatMap_nil, List.append_nil, List.map_cons, List.map_nil, Bool.not_false,
    Bool.and_self, Bool.true_and, Nat.le_add_right, min_eq_left, max_eq_right,
    run_lookahead t ic ml b true _ hb]
  by_cases h5 : (run t ic ml b true
      { pos := st.pos + w.length, caps := (k, st.pos, st.pos + w.length) :: st.caps }).isEmpty = true
  · simp [h5]
  · simp [h5]
theorem lt_length_of_holdsAt {t : Text} {p : Nat → Bool} {k : Nat}
    (h : holdsAt t p k = true) : k < t.length := by
  by_contra hk
  have : t[k]? = none := List.getElem?_eq_none (by omega)
  rw [holdsAt_of_none this] at h
  exact absurd h (by simp)

theorem run_star_cls (t : Text) (ic ml : Bool) (g neg : Bool) (items : List ClassItem)
    (fwd : Bool) (st : St) :
    run t ic ml (.star g (.cls neg items)) fwd st =
      loop (stepChar t fwd (classHas ic neg items)) g t.length st := by
  simp only [run]

theorem mem_run_star_cls_backward (t : Text) (ic ml : Bool) (g neg : Bool)
    (items : List ClassItem) (st s : St) :
    s ∈ run t ic ml (.star g (.cls neg items)) false st ↔
      s.caps = st.caps ∧ s.pos ≤ st.pos ∧
        ∀ k, s.pos ≤ k → k < st.pos → holdsAt t (classHas ic neg items) k = true := by
  rw [run_star_cls, mem_loop_backward]
  constructor
  · rintro ⟨h1, h2, _, h4⟩
    exact ⟨h1, h2, h4⟩
  · rintro ⟨h1, h2, h4⟩
    refine ⟨h1, h2, ?_, h4⟩
    by_cases he : s.pos = st.pos
    · omega
    · have := lt_length_of_holdsAt (h4 (st.pos - 1) (by omega) (by omega))
      omega

theorem mem_run_star_cls_forward (t : Text) (ic ml : Bool) (g neg : Bool)
    (items : List ClassItem) (st s : St) :
    s ∈ run t ic ml (.star g (.cls neg items)) true st ↔
      s.caps = st.caps ∧ st.pos ≤ s.pos ∧
        ∀ k, st.pos ≤ k → k < s.pos → holdsAt t (classHas ic neg items) k = true := by
  rw [run_star_cls, mem_loop_forward]
  constructor
  · rintro ⟨h1, h2, _, h4⟩
    exact ⟨h1, h2, h4⟩
  · rintro ⟨h1, h2, h4⟩
    refine ⟨h1, h2, ?_, h4⟩
    by_cases he : s.pos = st.pos
    · omega
    · have := lt_length_of_holdsAt (h4 (s.pos - 1) (by omega) (by omega))
      omega

theorem isEmpty_eq_false_iff_exists_mem {α : Type} (l : List α) :
    l.isEmpty = false ↔ ∃ x, x ∈ l := by
  cases l with
  | nil => simp
  | cons a l => simp only [List.isEmpty_cons, true_iff]; exact ⟨a, List.mem_cons_self _ _⟩

/-- The content `\bw[...]*` of a lookbehind finds a match ending at `st.pos` exactly
when the word stands somewhere before, at a word boundary, with only class
members from its end up to `st.pos`. -/
theorem context_behind (t : Text) (ic ml : Bool) (g neg : Bool) (items : List ClassItem)
    (w : List Nat) (st : St) :
    (run t ic ml (cat [.wordBoundary, lit w, .star g (.cls neg items)]) false st).isEmpty = false ↔
      ∃ e, e + w.length ≤ st.pos ∧ isBoundary t e = true ∧ litAt t ic w e = true ∧
        ∀ k, e + w.length ≤ k → k < st.pos → holdsAt t (classHas ic neg items) k = true := by
  rw [isEmpty_eq_false_iff_exists_mem]
  simp only [cat, run_seq_backward, List.mem_flatMap, mem_run_star_cls_backward,
    run_lit_backward, run_wordBoundary]
  constructor
  · rintro ⟨x, s2, ⟨s1, ⟨_, h2, h3⟩, hs2⟩, hx⟩
    split at hs2
    · rename_i hc
      simp only [List.mem_singleton] at hs2
      subst hs2
      split at hx
      · rename_i hb
        exact ⟨s1.pos - w.length, by omega, hb, hc.2, fun k hk1 hk2 => h3 k (by omega) hk2⟩
      · simp at hx
    · simp at hs2
  · rintro ⟨e, h1, h2, h3, h4⟩
    refine ⟨{ pos := e, caps := st.caps }, { pos := e, caps := st.caps },
      ⟨{ pos := e + w.length, caps := st.caps }, ⟨rfl, h1, h4⟩, ?_⟩, ?_⟩
    · simp [h3]
    · simp [h2]

theorem context_ahead (t : Text) (ic ml : Bool) (g neg : Bool) (items : List ClassItem)
    (st : St) :
    (run t ic ml (.star g (.cls neg items)) true st).isEmpty = false := by
  rw [isEmpty_eq_false_iff_exists_mem]
  exact ⟨st, (mem_run_star_cls_forward t ic ml g neg items st st).2
    ⟨rfl, le_refl _, fun k h1 h2 => by omega⟩⟩

/-! ## The scan loop -/

theorem findFrom_some (r : Rule) (t : Text) :
    ∀ (n q p : Nat) (s : St), findFrom r t n q = some (p, s) →
      q ≤ p ∧ p < q + n ∧ matchAt r t p = some s ∧
        ∀ k, q ≤ k → k < p → matchAt r t k = none := by
  intro n
  induction n with
  | zero => intro q p s h; simp [findFrom] at h
  | succ n ih =>
    intro q p s h
    simp only [findFrom] at h
    cases hm : matchAt r t q with
    | some x =>
      rw [hm] at h
      simp only [Option.some.injEq, Prod.mk.injEq] at h
      obtain ⟨rfl, rfl⟩ := h
      exact ⟨le_refl _, by omega, hm, fun k h1 h2 => by omega⟩
    | none =>
      rw [hm] at h
      obtain ⟨h1, h2, h3, h4⟩ := ih (q + 1) p s h
      refine ⟨by omega, by omega, h3, fun k hk1 hk2 => ?_⟩
      by_cases hk : k = q
      · rw [hk]; exact hm
      · exact h4 k (by omega) hk2

theorem findFrom_none (r : Rule) (t : Text) :
    ∀ (n q : Nat), findFrom r t n q = none →
      ∀ k, q ≤ k → k < q + n → matchAt r t k = none := by
  intro n
  induction n with
  | zero => intro q _ k h1 h2; omega
  | succ n ih =>
    intro q h k hk1 hk2
    simp only [findFrom] at h
    cases hm : matchAt r t q with
    | some x => rw [hm] at h; simp at h
    | none =>
      rw [hm] at h
      by_cases hk : k = q
      · rw [hk]; exact hm
      · exact ih (q + 1) h k (by omega) (by omega)

/-- Every Match of the scan loop comes from a match attempt that succeeded at
an offset of the text. -/
theorem mem_scanLoop (r : Rule) (idx : Nat) (t : Text) :
    ∀ (fuel lastIndex : Nat) (m : Match), m ∈ scanLoop r idx t fuel lastIndex →
      ∃ p s, lastIndex ≤ p ∧ p ≤ t.length ∧ matchAt r t p = some s ∧ m ∈ emit r idx p s := by
  intro fuel
  induction fuel with
  | zero => intro li m h; simp [scanLoop] at h
  | succ n ih =>
    intro li m h
    simp only [scanLoop] at h
    cases he : exec r t li with
    | none => rw [he] at h; simp at h
    | some ps =>
      obtain ⟨p, s⟩ := ps
      rw [he] at h
      simp only [List.mem_append] at h
      obtain ⟨h1, h2, h3, _⟩ := findFrom_some r t _ _ _ _ he
      rcases h with h | h
      · exact ⟨p, s, h1, by omega, h3, h⟩
      · obtain ⟨p', s', h1', h2', h3', h4'⟩ := ih _ m h
        refine ⟨p', s', ?_, h2', h3', h4'⟩
        split at h1' <;> omega

theorem mem_scanRule (r : Rule) (idx : Nat) (t : Text) (m : Match)
    (h : m ∈ scanRule r idx t) :
    ∃ p s, p ≤ t.length ∧ matchAt r t p = some s ∧ m ∈ emit r idx p s := by
  obtain ⟨p, s, _, h2, h3, h4⟩ := mem_scanLoop r idx t _ _ m h
  exact ⟨p, s, h2, h3, h4⟩

/-- When the matches of a rule are non-empty and no match attempt succeeds
strictly inside another match, the scan loop finds every successful attempt. -/
theorem scanLoop_complete (r : Rule) (idx : Nat) (t : Text)
    (hno : ∀ p s, matchAt r t p = some s →
      p < s.pos ∧ ∀ q, p < q → q < s.pos → matchAt r t q = none) :
    ∀ (fuel lastIndex : Nat), t.length + 1 ≤ fuel + lastIndex →
      ∀ p s, lastIndex ≤ p → p ≤ t.length → matchAt r t p = some s →
        ∀ m ∈ emit r idx p s, m ∈ scanLoop r idx t fuel lastIndex := by
  intro fuel
  induction fuel with
  | zero => intro li hf p s h1 h2; omega
  | succ n ih =>
    intro li hf p s h1 h2 hm m hmem
    simp only [scanLoop]
    cases he : exec r t li with
    | none =>
      have := findFrom_none r t _ _ he p h1 (by omega)
      rw [this] at hm
      exact absurd hm (by simp)
    | some ps =>
      obtain ⟨p', s'⟩ := ps
      obtain ⟨g1, g2, g3, g4⟩ := findFrom_some r t _ _ _ _ he
      simp only [List.mem_append]
      by_cases hp : p' = p
      · subst hp
        rw [g3] at hm
        simp only [Option.some.injEq] at hm
        subst hm
        exact Or.inl hmem
      · have hlt : p' < p := by
          by_contra hc
          have := g4 p h1 (by omega)
          rw [this] at hm
          exact absurd hm (by simp)
        obtain ⟨n1, n2⟩ := hno p' s' g3
        have hge : s'.pos ≤ p := by
          by_contra hc
          have := n2 p hlt (by omega)
          rw [this] at hm
          exact absurd hm (by simp)
        right
        rw [if_pos n1]
        exact ih s'.pos (by omega) p s hge h2 hm m hmem

theorem scanRule_complete (r : Rule) (idx : Nat) (t : Text)
    (hno : ∀ p s, matchAt r t p = some s →
      p < s.pos ∧ ∀ q, p < q → q < s.pos → matchAt r t q = none)
    (p : Nat) (s : St) (hp : p ≤ t.length) (hm : matchAt r t p = some s) :
    ∀ m ∈ emit r idx p s, m ∈ scanRule r idx t :=
  scanLoop_complete r idx t hno _ _ (by omega) p s (Nat.zero_le _) hp hm

/-! ## Words of the text -/

theorem litAt_iff (t : Text) :
    ∀ (w : List Nat) (p : Nat), litAt t true w p = true ↔
      ((t.drop p).take w.length).map upper = w.map upper := by
  intro w
  induction w with
  | nil => intro p; simp [litAt]
  | cons c cs ih =>
    intro p
    simp only [litAt, charAt, Bool.and_eq_true, ih, List.length_cons, List.map_cons]
    rcases h : t[p]? with _ | x
    · rw [holdsAt_of_none h]
      have hl : t.length ≤ p := List.getElem?_eq_none_iff.1 h
      rw [List.drop_eq_nil_of_le hl]
      simp
    · rw [holdsAt_of_some h]
      obtain ⟨hl, hx⟩ := List.getElem?_eq_some_iff.1 h
      rw [List.drop_eq_getElem_cons hl, hx]
      simp [canon]

theorem spells_iff (t : Text) (w : String) (p : Nat) :
    spells t w p ↔ litAt t true (codes w) p = true := by
  rw [litAt_iff]
  unfold spells
  have : (codes w).length = w.length := by
    unfold codes
    rw [List.length_map]
    rfl
  rw [this]

theorem canon_eq_of_charAt {t : Text} {c d k : Nat}
    (h1 : charAt t true c k = true) (h2 : charAt t true d k = true) : upper c = upper d := by
  unfold charAt at h1 h2
  rcases h : t[k]? with _ | x
  · rw [holdsAt_of_none h] at h1; exact absurd h1 (by simp)
  · rw [holdsAt_of_some h] at h1 h2
    simp only [canon, if_true, beq_iff_eq] at h1 h2
    rw [← h1, ← h2]

theorem notSemicolon_iff (x : Nat) : classHas true true [only ';'] x = true ↔ x ≠ 59 := by
  have h : ';'.toNat = 59 := by decide
  simp only [classHas, only, h, ClassItem.has, upper, lower, List.any_cons, List.any_nil,
    Bool.or_false, Bool.true_and, if_true, Bool.not_eq_true', Bool.or_eq_false_iff,
    beq_eq_false_iff_ne, ne_eq]
  constructor
  · intro h; exact h.1
  · intro h
    refine ⟨h, ?_, ?_⟩ <;> split <;> omega

theorem freeOf_iff (t : Text) (a b : Nat) (hb : b ≤ t.length) :
    (∀ k, a ≤ k → k < b → holdsAt t (classHas true true [only ';']) k = true) ↔
      freeOf t 59 a b := by
  unfold freeOf
  constructor
  · intro h k h1 h2 hk
    have := h k h1 h2
    rw [holdsAt_of_some hk, notSemicolon_iff] at this
    exact this rfl
  · intro h k h1 h2
    have hl : k < t.length := by omega
    have hk : t[k]? = some t[k] := List.getElem?_eq_getElem hl
    rw [holdsAt_of_some hk, notSemicolon_iff]
    intro hc
    exact h k h1 h2 (by rw [hk, hc])

theorem length_le_of_litAt {t : Text} {ic : Bool} :
    ∀ (w : List Nat) (p : Nat), litAt t ic w p = true → w ≠ [] → p + w.length ≤ t.length := by
  intro w
  induction w with
  | nil => intro p _ h; exact absurd rfl h
  | cons c cs ih =>
    intro p h _
    simp only [litAt, Bool.and_eq_true, charAt] at h
    have h1 := lt_length_of_holdsAt h.1
    by_cases hc : cs = []
    · subst hc; simp only [List.length_cons, List.length_nil]; omega
    · have := ih (p + 1) h.2 hc
      simp only [List.length_cons]; omega

/-! ## The index rule -/

theorem length_codes_index : (codes "index").length = 5 := by decide

theorem length_codes_property : (codes "property").length = 8 := by decide

theorem matchAt_indexDirective (t : Text) (p : Nat) (s : St) :
    matchAt indexDirective t p = some s ↔
      s = { pos := p + 5, caps := [(1, p, p + 5)] } ∧
      isBoundary t p = true ∧ litAt t true (codes "index") p = true ∧
      isBoundary t (p + 5) = true ∧
      ∃ e, e + 8 ≤ p ∧ isBoundary t e = true ∧ litAt t true (codes "property") e = true ∧
        ∀ k, e + 8 ≤ k → k < p → holdsAt t (classHas true true [only ';']) k = true := by
  have hb := context_behind t true false true true [only ';'] (codes "property")
    { pos := p, caps := [] }
  have ha := context_ahead t true false true true [only ';']
    { pos := p + 5, caps := [(1, p, p + 5)] }
  rw [length_codes_property] at hb
  simp only [matchAt, indexDirective, notSemicolon]
  rw [run_contextWord t true false _ _ 1 (codes "index") _ (by decide) (by decide)]
  simp only [length_codes_index, ha, Bool.not_false, Bool.and_true]
  by_cases h1 : (run t true false
      (cat [.wordBoundary, lit (codes "property"), .star true (.cls true [only ';'])]) false
      { pos := p, caps := [] }).isEmpty = false
  · have he := hb.1 h1
    by_cases h2 : isBoundary t p = true
    · by_cases h3 : litAt t true (codes "index") p = true
      · by_cases h4 : isBoundary t (p + 5) = true
        · simp only [h1, h2, h3, h4, Bool.not_false, Bool.and_self, if_true, List.head?_cons,
            Option.some.injEq, true_and]
          constructor
          · intro h; exact ⟨h.symm, he⟩
          · intro h; exact h.1.symm
        · simp [h1, h2, h3, h4]
      · simp [h1, h2, h3]
    · simp [h1, h2]
  · have hne : ¬ ∃ e, e + 8 ≤ p ∧ isBoundary t e = true ∧
        litAt t true (codes "property") e = true ∧
        ∀ k, e + 8 ≤ k → k < p → holdsAt t (classHas true true [only ';']) k = true :=
      fun h => h1 (hb.2 h)
    simp only [Bool.not_eq_false] at h1
    simp only [h1, Bool.not_true, Bool.false_and, Bool.false_eq_true, if_false, List.head?_nil]
    constructor
    · intro h; exact absurd h (by simp)
    · intro h; exact absurd h.2.2.2.2 hne
theorem codes_index : codes "index" = [105, 110, 100, 101, 120] := by decide

theorem index_no_overlap (t : Text) (p q : Nat)
    (hp : litAt t true (codes "index") p = true) (hq : litAt t true (codes "index") q = true)
    (h1 : p < q) (h2 : q < p + 5) : False := by
  rw [codes_index] at hp hq
  simp only [litAt, Bool.and_eq_true, Bool.and_true] at hp hq
  obtain ⟨a0, a1, a2, a3, a4⟩ := hp
  obtain ⟨b0, -⟩ := hq
  have hcases : q = p + 1 ∨ q = p + 1 + 1 ∨ q = p + 1 + 1 + 1 ∨ q = p + 1 + 1 + 1 + 1 := by omega
  rcases hcases with h | h | h | h <;> subst h
  · exact absurd (canon_eq_of_charAt a1 b0) (by decide)
  · exact absurd (canon_eq_of_charAt a2 b0) (by decide)
  · exact absurd (canon_eq_of_charAt a3 b0) (by decide)
  · exact absurd (canon_eq_of_charAt a4 b0) (by decide)

theorem indexDirective_nonoverlapping (t : Text) (p : Nat) (s : St)
    (h : matchAt indexDirective t p = some s) :
    p < s.pos ∧ ∀ q, p < q → q < s.pos → matchAt indexDirective t q = none := by
  obtain ⟨rfl, _, h3, _⟩ := (matchAt_indexDirective t p s).1 h
  refine ⟨by simp, fun q h1 h2 => ?_⟩
  cases hq : matchAt indexDirective t q with
  | none => rfl
  | some s' =>
    obtain ⟨_, _, h3', _⟩ := (matchAt_indexDirective t q s').1 hq
    exact absurd (index_no_overlap t p q h3 h3' h1 h2) id

/-- The Matches of the index rule: one at [p, p+5) exactly when a match attempt
succeeds at `p`. -/
theorem mem_scanRule_indexDirective (t : Text) (m : Match) :
    m ∈ scanRule indexDirective 11 t ↔
      m = { start := m.start, stop := m.start + 5, type := "k4", rule := 11 } ∧
      ∃ s, matchAt indexDirective t m.start = some s := by
  constructor
  · intro h
    obtain ⟨p, s, _, h2, h3⟩ := mem_scanRule _ _ _ _ h
    have hs := ((matchAt_indexDirective t p s).1 h2).1
    simp only [emit, indexDirective, List.mem_singleton] at h3
    subst h3
    subst hs
    exact ⟨rfl, _, h2⟩
  · rintro ⟨h1, s, h2⟩
    obtain ⟨hs, _, h3, _⟩ := (matchAt_indexDirective t m.start s).1 h2
    have hl := length_le_of_litAt _ _ h3 (by decide)
    apply scanRule_complete indexDirective 11 t (indexDirective_nonoverlapping t) m.start s
      (by omega) h2
    simp only [emit, indexDirective, List.mem_singleton]
    rw [hs]
    exact h1

/-! ## Rules of the shape `\b(w1|w2|...)\b` and the tags of Matches -/

theorem mem_run_alts (t : Text) (ic ml : Bool) (fwd : Bool) (st x : St) :
    ∀ (rs : List Re), x ∈ run t ic ml (alts rs) fwd st → ∃ r ∈ rs, x ∈ run t ic ml r fwd st := by
  intro rs
  induction rs with
  | nil =>
    intro h
    simp only [alts, run] at h
    cases fwd
    · rw [stepChar_backward] at h
      split at h
      · rename_i hc
        have := hc.2
        unfold holdsAt at this
        split at this <;> simp [classHas] at this
      · simp at h
    · rw [stepChar_forward] at h
      split at h
      · rename_i hc
        unfold holdsAt at hc
        split at hc <;> simp [classHas] at hc
      · simp at h
  | cons r rs ih =>
    intro h
    cases rs with
    | nil => exact ⟨r, List.mem_cons_self _ _, by simpa [alts] using h⟩
    | cons r' rs' =>
      simp only [alts, run, List.mem_append] at h
      rcases h with h | h
      · exact ⟨r, List.mem_cons_self _ _, h⟩
      · obtain ⟨r2, h1, h2⟩ := ih (by simpa [alts] using h)
        exact ⟨r2, List.mem_cons_of_mem _ h1, h2⟩

theorem matchAt_wordRule (t : Text) (ws : List String) (tag : String) (p : Nat) (s : St)
    (h : matchAt (wordRule ws tag) t p = some s) :
    ∃ w ∈ ws, litAt t true (codes w) p = true ∧ s.pos = p + (codes w).length := by
  have hmem : s ∈ run t true false
      (cat [.wordBoundary, .group 1 (words ws), .wordBoundary]) true { pos := p, caps := [] } :=
    List.mem_of_mem_head? h
  simp only [cat, run_seq_forward, run_wordBoundary, run_group, List.mem_flatMap,
    List.mem_map] at hmem
  obtain ⟨s1, hs1, s2, ⟨s3, hs3, rfl⟩, hs⟩ := hmem
  split at hs1
  swap
  · simp at hs1
  simp only [List.mem_singleton] at hs1
  subst hs1
  split at hs
  swap
  · simp at hs
  simp only [List.mem_singleton] at hs
  subst hs
  obtain ⟨r, hr, hx⟩ := mem_run_alts t true false true _ _ _ hs3
  simp only [List.mem_map] at hr
  obtain ⟨w, hw, rfl⟩ := hr
  rw [run_lit_forward] at hx
  split at hx
  · rename_i hl
    simp only [List.mem_singleton] at hx
    subst hx
    exact ⟨w, hw, hl, rfl⟩
  · simp at hx

theorem type_of_mem_scanRule (r : Rule) (idx : Nat) (t : Text) (m : Match)
    (h : m ∈ scanRule r idx t) :
    match r.type with
    | .single tag => m.type = tag
    | .perGroup tags => m.type ∈ tags := by
  obtain ⟨p, s, _, _, h3⟩ := mem_scanRule _ _ _ _ h
  unfold emit at h3
  split
  · rename_i tag ht
    rw [ht] at h3
    simp only [List.mem_singleton] at h3
    rw [h3]
  · rename_i tags ht
    rw [ht] at h3
    simp only [List.mem_filterMap] at h3
    obtain ⟨it, hit, hm⟩ := h3
    split at hm
    · split at hm
      · simp only [Option.some.injEq] at hm
        subst hm
        exact List.snd_mem_of_mem_enum hit
      · simp at hm
    · simp at hm
theorem mem_scanRule_single (r : Rule) (idx : Nat) (t : Text) (m : Match) (tag : String)
    (hr : r.type = .single tag) (h : m ∈ scanRule r idx t) :
    ∃ s, matchAt r t m.start = some s ∧ m.stop = s.pos ∧ m.type = tag ∧ m.rule = idx ∧
      m.start ≤ t.length := by
  obtain ⟨p, s, h1, h2, h3⟩ := mem_scanRule _ _ _ _ h
  simp only [emit, hr, List.mem_singleton] at h3
  subst h3
  exact ⟨s, h2, rfl, rfl, rfl, h1⟩

theorem length_codes (w : String) : (codes w).length = w.length := by
  unfold codes
  rw [List.length_map]
  rfl

/-- A rule `\b(w1|w2|...)\b` never yields a Match that spells a word which,
ignoring case, is none of `w1, w2, ...`. -/
theorem wordRule_never_spells (ws : List String) (tag word : String)
    (hw : ∀ w ∈ ws, (codes w).map upper ≠ (codes word).map upper)
    (idx : Nat) (t : Text) (m : Match) (hm : m ∈ scanRule (wordRule ws tag) idx t) :
    ¬ (spells t word m.start ∧ m.stop = m.start + word.length) := by
  rintro ⟨h1, h2⟩
  obtain ⟨s, hs, hstop, _⟩ := mem_scanRule_single _ idx t m tag rfl hm
  obtain ⟨w, hmem, hl, hpos⟩ := matchAt_wordRule t ws tag m.start s hs
  have hlen : (codes w).length = word.length := by omega
  rw [litAt_iff, hlen] at hl
  unfold spells at h1
  exact hw w hmem (hl.symm.trans h1)

theorem length_codes_name : (codes "name").length = 4 := by decide

theorem stop_of_mem_scanRule_nameDirective (t : Text) (m : Match)
    (hm : m ∈ scanRule nameDirective 12 t) : m.stop = m.start + 4 := by
  obtain ⟨s, hs, hstop, _⟩ := mem_scanRule_single _ 12 t m "k4" rfl hm
  simp only [matchAt, nameDirective, notSemicolon] at hs
  rw [run_contextWord t true true _ _ 1 (codes "name") _ (by decide) (by decide)] at hs
  split at hs
  · simp only [List.head?_cons, Option.some.injEq] at hs
    rw [hstop, ← hs, length_codes_name]
  · simp at hs

/-- No rule authored in the table other than the index rule yields a `k4` Match
that spells `index`. -/
theorem other_rules_never_k4_index (ir : Nat × Rule) (hir : ir ∈ authoredRules)
    (hne : ir.1 ≠ 11) (t : Text) (m : Match) (hm : m ∈ scanRule ir.2 ir.1 t)
    (htype : m.type = "k4") : ¬ (spells t "index" m.start ∧ m.stop = m.start + 5) := by
  simp only [authoredRules, List.mem_cons, List.mem_singleton, List.not_mem_nil,
    or_false] at hir
  rcases hir with rfl | rfl | rfl | rfl | rfl | rfl | rfl | rfl | rfl | rfl | rfl | rfl | rfl |
    rfl | rfl | rfl | rfl | rfl | rfl | rfl | rfl | rfl | rfl
  case inr.inr.inr.inr.inr.inr.inr.inr.inl =>
    exact wordRule_never_spells _ "k4" "index" (by decide) 10 t m hm
  case inr.inr.inr.inr.inr.inr.inr.inr.inr.inl => exact absurd rfl hne
  case inr.inr.inr.inr.inr.inr.inr.inr.inr.inr.inl =>
    rintro ⟨_, h2⟩
    have := stop_of_mem_scanRule_nameDirective t m hm
    omega
  all_goals
    have h := type_of_mem_scanRule _ _ _ _ hm
    first
      | (simp only [controlStrings, keywords, visibility, controlKeywords, initialization,
          operators, integerTypes, stringTypes, booleanTypes, realTypes, labels, qualifiers,
          inheritance, nilConstant, compilerDirectives, blockComments, docComments, brackets,
          wordRule] at h
         rw [htype] at h
         exact absurd h (by decide))
      | (simp only [usesNamespaces, unitNames] at h
         rw [htype] at h
         exact absurd h (by decide))

/-! ## The merge policy -/

theorem before_iff (a b : Match) :
    before a b = true ↔ a.start < b.start ∨ (a.start = b.start ∧ a.rule < b.rule) := by
  simp [before]

theorem pick_mem : ∀ (l : List Match) (b : Match), pick l = some b → b ∈ l := by
  intro l
  induction l with
  | nil => intro b h; simp [pick] at h
  | cons m ms ih =>
    intro b h
    simp only [pick] at h
    cases hp : pick ms with
    | none =>
      rw [hp] at h
      simp only [Option.some.injEq] at h
      rw [← h]; exact List.mem_cons_self _ _
    | some c =>
      rw [hp] at h
      simp only at h
      split at h
      · simp only [Option.some.injEq] at h
        rw [← h]; exact List.mem_cons_of_mem _ (ih c hp)
      · simp only [Option.some.injEq] at h
        rw [← h]; exact List.mem_cons_self _ _

/-- The picked Match goes before all others: no candidate starts earlier, and
none starts at the same offset with a smaller priority index. -/
theorem pick_min : ∀ (l : List Match) (b : Match), pick l = some b →
    ∀ m ∈ l, before m b = false := by
  intro l
  induction l with
  | nil => intro b _ m hm; simp at hm
  | cons x xs ih =>
    intro b h m hm
    simp only [pick] at h
    cases hp : pick xs with
    | none =>
      rw [hp] at h
      simp only [Option.some.injEq] at h
      subst h
      have hxs : xs = [] := by
        cases xs with
        | nil => rfl
        | cons y ys =>
          simp only [pick] at hp
          cases hq : pick ys with
          | none => rw [hq] at hp; simp at hp
          | some c => rw [hq] at hp; simp only at hp; split at hp <;> simp at hp
      subst hxs
      simp only [List.mem_singleton] at hm
      subst hm
      simp [before]
    | some c =>
      rw [hp] at h
      simp only at h
      have ihc := ih c hp
      split at h
      · rename_i hb
        simp only [Option.some.injEq] at h
        subst h
        rcases List.mem_cons.1 hm with rfl | hm'
        · rw [before_iff] at hb
          rw [Bool.eq_false_iff]
          intro hc
          rw [before_iff] at hc
          omega
        · exact ihc m hm'
      · rename_i hb
        simp only [Option.some.injEq] at h
        subst h
        rcases List.mem_cons.1 hm with rfl | hm'
        · simp [before]
        · have h1 := ihc m hm'
          rw [Bool.eq_false_iff] at h1 ⊢
          intro hc
          rw [before_iff] at hc
          rw [ne_eq, before_iff] at h1
          rw [before_iff] at hb
          omega

theorem pick_eq_of_first : ∀ (l : List Match) (m : Match), m ∈ l →
    (∀ x ∈ l, x = m ∨ before m x = true) → pick l = some m := by
  intro l
  induction l with
  | nil => intro m hm; simp at hm
  | cons x xs ih =>
    intro m hm hall
    simp only [pick]
    by_cases hin : m ∈ xs
    · rw [ih m hin (fun y hy => hall y (List.mem_cons_of_mem _ hy))]
      simp only
      rcases hall x (List.mem_cons_self _ _) with rfl | hb
      · have : before x x = false := by simp [before]
        simp [this]
      · simp [hb]
    · have hx : x = m := by
        rcases List.mem_cons.1 hm with h | h
        · exact h.symm
        · exact absurd h hin
      subst hx
      cases hp : pick xs with
      | none => rfl
      | some c =>
        simp only
        have hc := pick_mem xs c hp
        have hne : c ≠ x := fun h => hin (h ▸ hc)
        rcases hall c (List.mem_cons_of_mem _ hc) with h | h
        · exact absurd h hne
        · have : before c x = false := by
            rw [Bool.eq_false_iff]
            intro h2
            rw [before_iff] at h h2
            omega
          simp [this]

/-! ## The rule table as a whole -/

theorem rule_of_mem_scanRule (r : Rule) (idx : Nat) (t : Text) (m : Match)
    (h : m ∈ scanRule r idx t) : m.rule = idx := by
  obtain ⟨p, s, _, _, h3⟩ := mem_scanRule _ _ _ _ h
  unfold emit at h3
  split at h3
  · simp only [List.mem_singleton] at h3
    rw [h3]
  · simp only [List.mem_filterMap] at h3
    obtain ⟨it, _, hm⟩ := h3
    split at hm
    · split at hm
      · simp only [Option.some.injEq] at hm
        rw [← hm]
      · simp at hm
    · simp at hm

theorem mem_scan_iff (rules : List Rule) (t : Text) (m : Match) :
    m ∈ (scan rules t).flatten ↔ ∃ i r, rules[i]? = some r ∧ m ∈ scanRule r i t := by
  simp only [scan, List.mem_flatten, List.mem_map]
  constructor
  · rintro ⟨l, ⟨it, hit, rfl⟩, hm⟩
    exact ⟨it.1, it.2, List.mem_enum_iff_getElem?.1 hit, hm⟩
  · rintro ⟨i, r, h, hm⟩
    exact ⟨_, ⟨(i, r), List.mem_enum_iff_getElem?.2 h, rfl⟩, hm⟩

theorem slot_of_getElem? (lib : CommonRules) (i : Nat) (r : Rule)
    (h : (setupLanguage lib)[i]? = some r) :
    (i, r) ∈ commonSlots lib ∨ (i, r) ∈ authoredRules := by
  have hi : i < 34 := by
    by_contra hc
    have : (setupLanguage lib)[i]? = none :=
      List.getElem?_eq_none (by simp only [setupLanguage, List.length_cons, List.length_nil]; omega)
    rw [this] at h
    exact absurd h (by simp)
  interval_cases i <;>
    (simp only [setupLanguage, List.getElem?_cons_succ, List.getElem?_cons_zero,
        Option.some.injEq] at h
     subst h
     simp [commonSlots, authoredRules])

theorem getElem?_of_commonSlots (lib : CommonRules) (ir : Nat × Rule)
    (h : ir ∈ commonSlots lib) : (setupLanguage lib)[ir.1]? = some ir.2 := by
  simp only [commonSlots, List.mem_cons, List.mem_singleton, List.not_mem_nil, or_false] at h
  rcases h with rfl | rfl | rfl | rfl | rfl | rfl | rfl | rfl | rfl | rfl | rfl <;> rfl

theorem getElem?_of_authoredRules (lib : CommonRules) (ir : Nat × Rule)
    (h : ir ∈ authoredRules) : (setupLanguage lib)[ir.1]? = some ir.2 := by
  simp only [authoredRules, List.mem_cons, List.mem_singleton, List.not_mem_nil, or_false] at h
  rcases h with rfl | rfl | rfl | rfl | rfl | rfl | rfl | rfl | rfl | rfl | rfl | rfl | rfl |
    rfl | rfl | rfl | rfl | rfl | rfl | rfl | rfl | rfl | rfl <;> rfl

/-- Every Match of the table comes from a fragment slot or from an authored rule,
scanned under its own priority index. -/
theorem mem_scan_setupLanguage (lib : CommonRules) (t : Text) (m : Match) :
    m ∈ (scan (setupLanguage lib) t).flatten ↔
      (∃ ir ∈ commonSlots lib, m ∈ scanRule ir.2 ir.1 t) ∨
      (∃ ir ∈ authoredRules, m ∈ scanRule ir.2 ir.1 t) := by
  rw [mem_scan_iff]
  constructor
  · rintro ⟨i, r, h, hm⟩
    rcases slot_of_getElem? lib i r h with h1 | h1
    · exact Or.inl ⟨(i, r), h1, hm⟩
    · exact Or.inr ⟨(i, r), h1, hm⟩
  · rintro (⟨ir, h, hm⟩ | ⟨ir, h, hm⟩)
    · exact ⟨ir.1, ir.2, getElem?_of_commonSlots lib ir h, hm⟩
    · exact ⟨ir.1, ir.2, getElem?_of_authoredRules lib ir h, hm⟩
theorem mergeFrom_at_end (ms : List Match) (len fuel : Nat) :
    mergeFrom ms len fuel len = [] := by
  cases fuel <;> simp [mergeFrom]

theorem slot_indices_differ (lib : CommonRules) :
    ∀ ir ∈ commonSlots lib, ∀ ia ∈ authoredRules, ir.1 ≠ ia.1 := by
  have h1 : (commonSlots lib).map Prod.fst = [0, 2, 20, 21, 22, 25, 28, 29, 30, 31, 32] := rfl
  have h2 : ∀ i ∈ [0, 2, 20, 21, 22, 25, 28, 29, 30, 31, 32], ∀ ia ∈ authoredRules, i ≠ ia.1 := by
    decide
  intro ir hir ia hia
  exact h2 ir.1 (h1 ▸ List.mem_map_of_mem Prod.fst hir) ia hia

/-- When a Match `M` of an authored rule covers the whole text, no fragment
declared before its rule puts a Match at offset 0, and `M` goes before every
other Match of the authored rules, the token stream is the one token of `M`. -/
theorem tokenize_whole_text (lib : CommonRules) (t : Text) (M : Match)
    (hlen : 0 < t.length)
    (hM : ∃ ir ∈ authoredRules, M ∈ scanRule ir.2 ir.1 t)
    (hs : M.start = 0) (he : M.stop = t.length)
    (hfrag : ∀ ir ∈ commonSlots lib, ir.1 < M.rule →
      ∀ m ∈ scanRule ir.2 ir.1 t, m.start ≠ 0)
    (hauth : ∀ ir ∈ authoredRules, ∀ m ∈ scanRule ir.2 ir.1 t, m = M ∨ before M m = true) :
    tokenize lib t = [{ start := 0, stop := t.length, type := some M.type }] := by
  obtain ⟨ia, hia, hMa⟩ := hM
  have hrule : M.rule = ia.1 := rule_of_mem_scanRule _ _ _ _ hMa
  have hpick : pick (candidates (scan (setupLanguage lib) t).flatten 0) = some M := by
    apply pick_eq_of_first
    · simp only [candidates, List.mem_filter, Nat.zero_le, decide_True, Bool.true_and,
        decide_eq_true_eq]
      exact ⟨(mem_scan_setupLanguage lib t M).2 (Or.inr ⟨ia, hia, hMa⟩), by omega⟩
    · intro m hm
      simp only [candidates, List.mem_filter] at hm
      rcases (mem_scan_setupLanguage lib t m).1 hm.1 with ⟨ir, hir, hmr⟩ | ⟨ir, hir, hmr⟩
      · right
        rw [before_iff]
        have hmrule : m.rule = ir.1 := rule_of_mem_scanRule _ _ _ _ hmr
        have hne := slot_indices_differ lib ir hir ia hia
        by_cases hlt : ir.1 < M.rule
        · have := hfrag ir hir hlt m hmr
          omega
        · omega
      · exact hauth ir hir m hmr
  unfold tokenize merge
  simp only [mergeFrom, hpick, hs, he, Nat.lt_irrefl, if_false, List.nil_append,
    mergeFrom_at_end]
  rw [if_neg (by omega)]

/-! ## The fuel of the loops is never used up -/

theorem pos_of_mem_stepChar {t : Text} {fwd : Bool} {p : Nat → Bool} {st s : St}
    (h : s ∈ stepChar t fwd p st) :
    (fwd = true → st.pos ≤ s.pos) ∧ (fwd = false → s.pos ≤ st.pos) ∧ s.pos ≤ t.length := by
  cases fwd
  · rw [stepChar_backward] at h
    split at h
    · rename_i hc
      simp only [List.mem_singleton] at h
      subst h
      have := lt_length_of_holdsAt hc.2
      exact ⟨by simp, fun _ => by simp, by simp only; omega⟩
    · simp at h
  · rw [stepChar_forward] at h
    split at h
    · rename_i hc
      simp only [List.mem_singleton] at h
      subst h
      have := lt_length_of_holdsAt hc
      exact ⟨fun _ => by simp, by simp, by simp only; omega⟩
    · simp at h

theorem pos_of_mem_loop {t : Text} {body : St → List St} {g fwd : Bool}
    (hbody : ∀ a b, b ∈ body a →
      (fwd = true → a.pos ≤ b.pos) ∧ (fwd = false → b.pos ≤ a.pos) ∧
        (a.pos ≤ t.length → b.pos ≤ t.length)) :
    ∀ (fuel : Nat) (st s : St), s ∈ loop body g fuel st →
      (fwd = true → st.pos ≤ s.pos) ∧ (fwd = false → s.pos ≤ st.pos) ∧
        (st.pos ≤ t.length → s.pos ≤ t.length) := by
  intro fuel
  induction fuel with
  | zero =>
    intro st s h
    simp only [loop, List.mem_singleton] at h
    subst h
    exact ⟨fun _ => le_refl _, fun _ => le_refl _, id⟩
  | succ n ih =>
    intro st s h
    have h2 : s = st ∨ s ∈ ((body st).filter (fun x => x.pos != st.pos)).flatMap
        (loop body g n) := by
      cases g <;> simpa [loop, or_comm] using h
    rcases h2 with rfl | h2
    · exact ⟨fun _ => le_refl _, fun _ => le_refl _, id⟩
    · simp only [List.mem_flatMap, List.mem_filter] at h2
      obtain ⟨a, ⟨ha, _⟩, hs⟩ := h2
      obtain ⟨a1, a2, a3⟩ := hbody st a ha
      obtain ⟨b1, b2, b3⟩ := ih a s hs
      exact ⟨fun hf => le_trans (a1 hf) (b1 hf), fun hf => le_trans (b2 hf) (a2 hf),
        fun hl => b3 (a3 hl)⟩

/-- A match moves the offset in the direction of matching only, and stays
inside the text. -/
theorem pos_of_mem_run (t : Text) (ic ml : Bool) :
    ∀ (r : Re) (fwd : Bool) (st s : St), s ∈ run t ic ml r fwd st →
      (fwd = true → st.pos ≤ s.pos) ∧ (fwd = false → s.pos ≤ st.pos) ∧
        (st.pos ≤ t.length → s.pos ≤ t.length) := by
  intro r
  induction r with
  | empty =>
    intro fwd st s h
    simp only [run, List.mem_singleton] at h
    subst h
    exact ⟨fun _ => le_refl _, fun _ => le_refl _, id⟩
  | char c =>
    intro fwd st s h
    obtain ⟨h1, h2, h3⟩ := pos_of_mem_stepChar h
    exact ⟨h1, h2, fun _ => h3⟩
  | cls neg items =>
    intro fwd st s h
    obtain ⟨h1, h2, h3⟩ := pos_of_mem_stepChar h
    exact ⟨h1, h2, fun _ => h3⟩
  | dot =>
    intro fwd st s h
    obtain ⟨h1, h2, h3⟩ := pos_of_mem_stepChar h
    exact ⟨h1, h2, fun _ => h3⟩
  | seq a b iha ihb =>
    intro fwd st s h
    cases fwd
    · simp only [run, Bool.false_eq_true, if_false, List.mem_flatMap] at h
      obtain ⟨x, hx, hs⟩ := h
      obtain ⟨a1, a2, a3⟩ := ihb _ _ _ hx
      obtain ⟨b1, b2, b3⟩ := iha _ _ _ hs
      exact ⟨fun hf => le_trans (a1 hf) (b1 hf), fun hf => le_trans (b2 hf) (a2 hf),
        fun hl => b3 (a3 hl)⟩
    · simp only [run, if_true, List.mem_flatMap] at h
      obtain ⟨x, hx, hs⟩ := h
      obtain ⟨a1, a2, a3⟩ := iha _ _ _ hx
      obtain ⟨b1, b2, b3⟩ := ihb _ _ _ hs
      exact ⟨fun hf => le_trans (a1 hf) (b1 hf), fun hf => le_trans (b2 hf) (a2 hf),
        fun hl => b3 (a3 hl)⟩
  | alt a b iha ihb =>
    intro fwd st s h
    simp only [run, List.mem_append] at h
    rcases h with h | h
    · exact iha _ _ _ h
    · exact ihb _ _ _ h
  | star g r ih =>
    intro fwd st s h
    simp only [run] at h
    exact pos_of_mem_loop (fun a b hb => ih fwd a b hb) _ _ _ h
  | plus g r ih =>
    intro fwd st s h
    simp only [run, List.mem_flatMap] at h
    obtain ⟨x, hx, hs⟩ := h
    obtain ⟨a1, a2, a3⟩ := ih _ _ _ hx
    obtain ⟨b1, b2, b3⟩ := pos_of_mem_loop (fun a b hb => ih fwd a b hb) _ _ _ hs
    exact ⟨fun hf => le_trans (a1 hf) (b1 hf), fun hf => le_trans (b2 hf) (a2 hf),
      fun hl => b3 (a3 hl)⟩
  | group k r ih =>
    intro fwd st s h
    simp only [run, List.mem_map] at h
    obtain ⟨x, hx, rfl⟩ := h
    exact ih fwd st x hx
  | lookahead r _ =>
    intro fwd st s h
    simp only [run] at h
    split at h
    · simp at h
    · simp only [List.mem_singleton] at h
      subst h
      exact ⟨fun _ => le_refl _, fun _ => le_refl _, id⟩
  | lookbehind r _ =>
    intro fwd st s h
    simp only [run] at h
    split at h
    · simp at h
    · simp only [List.mem_singleton] at h
      subst h
      exact ⟨fun _ => le_refl _, fun _ => le_refl _, id⟩
  | wordBoundary =>
    intro fwd st s h
    simp only [run] at h
    split at h
    · simp only [List.mem_singleton] at h
      subst h
      exact ⟨fun _ => le_refl _, fun _ => le_refl _, id⟩
    · simp at h
  | lineStart =>
    intro fwd st s h
    simp only [run] at h
    split at h
    · simp only [List.mem_singleton] at h
      subst h
      exact ⟨fun _ => le_refl _, fun _ => le_refl _, id⟩
    · simp at h
  | lineEnd =>
    intro fwd st s h
    simp only [run] at h
    split at h
    · simp only [List.mem_singleton] at h
      subst h
      exact ⟨fun _ => le_refl _, fun _ => le_refl _, id⟩
    · simp at h

/-- More fuel than the distance to the end of the text (forward) or to its
start (backward) changes nothing: the loop never runs out of fuel. -/
theorem loop_fuel_irrelevant {t : Text} {body : St → List St} {g fwd : Bool}
    (hbody : ∀ a b, b ∈ body a →
      (fwd = true → a.pos ≤ b.pos) ∧ (fwd = false → b.pos ≤ a.pos) ∧
        (a.pos ≤ t.length → b.pos ≤ t.length)) :
    ∀ (n k : Nat) (st : St), st.pos ≤ t.length →
      (if fwd then t.length - st.pos else st.pos) ≤ n →
      loop body g (n + k) st = loop body g n st := by
  intro n
  induction n with
  | zero =>
    intro k st hl hr
    cases k with
    | zero => rfl
    | succ k =>
      have hnil : (body st).filter (fun x => x.pos != st.pos) = [] := by
        rw [List.filter_eq_nil_iff]
        intro a ha
        obtain ⟨a1, a2, a3⟩ := hbody st a ha
        have a3' := a3 hl
        simp only [bne_iff_ne, ne_eq, not_not]
        cases fwd
        · have := a2 rfl
          simp only [Bool.false_eq_true, if_false] at hr
          omega
        · have := a1 rfl
          simp only [if_true] at hr
          omega
      cases g <;> simp [loop, hnil]
  | succ n ih =>
    intro k st hl hr
    have hk : n + 1 + k = (n + k) + 1 := by omega
    rw [hk]
    have hcongr : ((body st).filter (fun x => x.pos != st.pos)).flatMap (loop body g (n + k)) =
        ((body st).filter (fun x => x.pos != st.pos)).flatMap (loop body g n) := by
      apply List.flatMap_congr
      intro a ha
      simp only [List.mem_filter, bne_iff_ne, ne_eq] at ha
      obtain ⟨a1, a2, a3⟩ := hbody st a ha.1
      have a3' := a3 hl
      apply ih k a a3'
      cases fwd
      · have := a2 rfl
        simp only [Bool.false_eq_true, if_false] at hr ⊢
        omega
      · have := a1 rfl
        simp only [if_true] at hr ⊢
        omega
    cases g <;> simp only [loop, hcongr]

/-- The loops `r*` and `r*?` of the matcher, which run on fuel `t.length`, give
the same result on any larger fuel. -/
theorem run_star_fuel (t : Text) (ic ml : Bool) (g : Bool) (r : Re) (fwd : Bool) (st : St)
    (hl : st.pos ≤ t.length) (k : Nat) :
    run t ic ml (.star g r) fwd st =
      loop (fun s => run t ic ml r fwd s) g (t.length + k) st := by
  simp only [run]
  symm
  apply @loop_fuel_irrelevant t _ g fwd
    (fun a b hb => pos_of_mem_run t ic ml r fwd a b hb) _ _ _ hl
  cases fwd
  · simpa using hl
  · simp

/-- The scan loop, which runs on fuel `t.length + 1`, gives the same result on
any larger fuel. -/
theorem scanLoop_fuel (r : Rule) (idx : Nat) (t : Text) :
    ∀ (n k lastIndex : Nat), t.length + 1 ≤ n + lastIndex →
      scanLoop r idx t (n + k) lastIndex = scanLoop r idx t n lastIndex := by
  intro n
  induction n with
  | zero =>
    intro k li h
    have he : exec r t li = none := by
      unfold exec
      have : t.length + 1 - li = 0 := by omega
      rw [this]
      rfl
    cases k with
    | zero => rfl
    | succ k => simp [scanLoop, he]
  | succ n ih =>
    intro k li h
    have hk : n + 1 + k = (n + k) + 1 := by omega
    rw [hk]
    simp only [scanLoop]
    cases he : exec r t li with
    | none => rfl
    | some ps =>
      obtain ⟨p, s⟩ := ps
      obtain ⟨g1, _, _, _⟩ := findFrom_some r t _ _ _ _ he
      simp only
      rw [ih k _ (by split <;> omega)]

/-- The merge loop, which runs on fuel `len + 1`, gives the same result on any
larger fuel: every accepted Match is non-empty and moves the offset on. -/
theorem mergeFrom_fuel (ms : List Match) (len : Nat) :
    ∀ (n k pos : Nat), len + 1 ≤ n + pos →
      mergeFrom ms len (n + k) pos = mergeFrom ms len n pos := by
  intro n
  induction n with
  | zero =>
    intro k pos h
    cases k with
    | zero => rfl
    | succ k =>
      have : len ≤ pos := by omega
      simp [mergeFrom, this]
  | succ n ih =>
    intro k pos h
    have hk : n + 1 + k = (n + k) + 1 := by omega
    rw [hk]
    simp only [mergeFrom]
    by_cases hl : len ≤ pos
    · simp [hl]
    · simp only [hl, if_false]
      cases hp : pick (candidates ms pos) with
      | none => rfl
      | some m =>
        have hm := pick_mem _ _ hp
        simp only [candidates, List.mem_filter, Bool.and_eq_true, decide_eq_true_eq] at hm
        simp only
        rw [ih k m.stop (by omega)]

/-- No authored pattern has a capturing group under a quantifier. -/
theorem authoredRules_no_group_under_quantifier :
    ∀ ir ∈ authoredRules, ir.2.regex.groupUnderQuantifier = false := by
  decide!

/-! ## The table on concrete inputs -/

/-- C2. Scanning `uses SysUtils, Classes;` with the uses rule (priority index 5)
yields exactly three Matches, one per non-empty capturing group: `k0` for
`uses` at [0,4), `k10` for `SysUtils` at [5,13) and `k10` for `Classes` at
[15,22); the offsets of the space (4), of the comma and the space after it
(13, 14) and of the semicolon (22) lie in no Match of the rule. -/
theorem uses_rule_multi_group_emission :
    scanRule usesNamespaces 5 (codes "uses SysUtils, Classes;") =
      [ { start := 0, stop := 4, type := "k0", rule := 5 },
        { start := 5, stop := 13, type := "k10", rule := 5 },
        { start := 15, stop := 22, type := "k10", rule := 5 } ] ∧
    ∀ k ∈ [4, 13, 14, 22],
      ∀ m ∈ scanRule usesNamespaces 5 (codes "uses SysUtils, Classes;"),
        ¬ (m.start ≤ k ∧ k < m.stop) := by
  decide!

/-- C3. Every rule authored in `setupLanguage` (each authored rule with the index
at which the table holds it) whose type assignment is a list has as many
capturing groups in its pattern as tags in the list, and passes the arity
validation; the rules with a list are the uses rule and the unit-name rule,
both with two groups and two tags. -/
theorem authored_rules_group_arity (lib : CommonRules) :
    (∀ ir ∈ authoredRules, (setupLanguage lib)[ir.1]? = some ir.2) ∧
    (∀ ir ∈ authoredRules, ∀ tags, ir.2.type = .perGroup tags →
        ir.2.regex.groupCount = tags.length) ∧
    (∀ ir ∈ authoredRules, arityError ir.2 = none) ∧
    (authoredRules.filter (fun ir => ir.2.type.isList)).map
        (fun ir => (ir.1, ir.2.regex.groupCount, ir.2.type)) =
      [(5, 2, .perGroup ["k0", "k10"]), (6, 2, .perGroup ["k0", "k10"])] := by
  have h : ∀ ir ∈ authoredRules, arityError ir.2 = none := by decide!
  refine ⟨getElem?_of_authoredRules lib, ?_, h, by decide!⟩
  intro ir hir tags htags
  have h1 := h ir hir
  unfold arityError at h1
  rw [htags] at h1
  by_cases hc : tags.length = ir.2.regex.groupCount
  · exact hc.symm
  · simp [hc] at h1

/-- C6 (the code at the witness input). On `(* f(x) *)` the block-comment rule
yields one Match, [0,7): the text `(* f(x)`, which ends at the first `)` and
not at `*)`; it does not cover the input of 10 characters. -/
theorem block_comment_stops_at_first_paren :
    scanRule blockComments 26 (codes "(* f(x) *)") =
      [ { start := 0, stop := 7, type := "c1", rule := 26 } ] ∧
    (codes "(* f(x) *)").length = 10 := by
  decide!

/-- C7 (the code at the witness input). On `Focuses(a, b);` the uses rule yields
a `k10` Match for `a` at [8,9), although the text has no keyword `uses` (the
keyword rule, which has `uses` as a whole word, yields nothing): the lookbehind
accepts the letters `uses` inside `Focuses`. -/
theorem uses_rule_inside_identifier :
    scanRule usesNamespaces 5 (codes "Focuses(a, b);") =
      [ { start := 8, stop := 9, type := "k10", rule := 5 } ] ∧
    scanRule keywords 3 (codes "Focuses(a, b);") = [] := by
  decide!

/-- C8 (the code at the witness input). On the text `private` alone, which has
no `class` and no `record` (the keyword rule yields nothing), the visibility
rule yields a Match for the whole word. -/
theorem visibility_matches_without_context :
    scanRule visibility 4 (codes "private") =
      [ { start := 0, stop := 7, type := "k0", rule := 4 } ] ∧
    scanRule keywords 3 (codes "private") = [] := by
  decide!

/-- C4. For every text and offset `p`, the index rule (priority index 11, type
`k4`) yields the Match [p, p+5) exactly when the five characters at `p` spell
`index` ignoring case, with a word boundary at `p` and at `p+5`, and some
occurrence of `property` (ignoring case, starting at a word boundary) ends at
or before `p` with no `;` between its end and `p`. Every Match of the rule has
this form. In particular, when no `property` ends at or before `p`, the rule
yields no Match at `p`; and no other rule authored in the table yields a `k4`
Match for a word spelled `index`. -/
theorem index_rule_context_sensitive (t : Text) (p : Nat) :
    ((({ start := p, stop := p + 5, type := "k4", rule := 11 } : Match) ∈
        scanRule indexDirective 11 t) ↔
      (spells t "index" p ∧ isBoundary t p = true ∧ isBoundary t (p + 5) = true ∧
        ∃ e, e + 8 ≤ p ∧ spells t "property" e ∧ isBoundary t e = true ∧
          freeOf t 59 (e + 8) p)) ∧
    (∀ m ∈ scanRule indexDirective 11 t, m.stop = m.start + 5 ∧ m.type = "k4" ∧ m.rule = 11) ∧
    ((¬ ∃ e, e + 8 ≤ p ∧ spells t "property" e) →
      ∀ m ∈ scanRule indexDirective 11 t, m.start ≠ p) ∧
    (∀ ir ∈ authoredRules, ir.1 ≠ 11 → ∀ m ∈ scanRule ir.2 ir.1 t, m.type = "k4" →
      ¬ (spells t "index" m.start ∧ m.stop = m.start + 5)) := by
  have hform : ∀ m ∈ scanRule indexDirective 11 t,
      m.stop = m.start + 5 ∧ m.type = "k4" ∧ m.rule = 11 := by
    intro m hm
    have h := ((mem_scanRule_indexDirective t m).1 hm).1
    rw [h]
    exact ⟨rfl, rfl, rfl⟩
  have hiff : ∀ q, (({ start := q, stop := q + 5, type := "k4", rule := 11 } : Match) ∈
        scanRule indexDirective 11 t) ↔
      (spells t "index" q ∧ isBoundary t q = true ∧ isBoundary t (q + 5) = true ∧
        ∃ e, e + 8 ≤ q ∧ spells t "property" e ∧ isBoundary t e = true ∧
          freeOf t 59 (e + 8) q) := by
    intro q
    rw [mem_scanRule_indexDirective]
    simp only [true_and, spells_iff]
    constructor
    · rintro ⟨s, hs⟩
      obtain ⟨_, h2, h3, h4, e, h5, h6, h7, h8⟩ := (matchAt_indexDirective t q s).1 hs
      have hl := length_le_of_litAt _ _ h3 (by decide)
      exact ⟨h3, h2, h4, e, h5, h7, h6, (freeOf_iff t _ _ (by omega)).1 h8⟩
    · rintro ⟨h3, h2, h4, e, h5, h7, h6, h8⟩
      have hl := length_le_of_litAt _ _ h3 (by decide)
      exact ⟨_, (matchAt_indexDirective t q _).2
        ⟨rfl, h2, h3, h4, e, h5, h6, h7, (freeOf_iff t _ _ (by omega)).2 h8⟩⟩
  refine ⟨hiff p, hform, ?_, ?_⟩
  · intro hnone m hm hstart
    obtain ⟨h1, h2, h3⟩ := hform m hm
    have hm2 : ({ start := p, stop := p + 5, type := "k4", rule := 11 } : Match) ∈
        scanRule indexDirective 11 t := by
      have : m = { start := p, stop := p + 5, type := "k4", rule := 11 } := by
        cases m
        simp only at h1 h2 h3 hstart
        subst hstart h1 h2 h3
        rfl
      rw [← this]; exact hm
    obtain ⟨_, _, _, e, h5, h6, _⟩ := (hiff p).1 hm2
    exact hnone ⟨e, h5, h6⟩
  · intro ir hir hne m hm htype
    exact other_rules_never_k4_index ir hir hne t m hm htype

/-- C4, on a concrete text: in `property X: Integer index 1 read Get; index` the
first `index` (offset 20) follows `property` with no `;` in between and gets a
Match; the second one (offset 38) comes after the `;` and gets none. -/
theorem index_rule_context_sensitive_witness :
    ({ start := 20, stop := 25, type := "k4", rule := 11 } : Match) ∈
        scanRule indexDirective 11 (codes "property X: Integer index 1 read Get; index") ∧
    ∀ m ∈ scanRule indexDirective 11 (codes "property X: Integer index 1 read Get; index"),
      m.start = 20 := by
  refine ⟨(index_rule_context_sensitive _ 20).1.2
    ⟨by unfold spells; decide, by decide, by decide, 0, by decide, by unfold spells; decide,
      by decide, ?_⟩, by decide!⟩
  intro k h1 h2
  have : k < 20 := h2
  interval_cases k <;> decide

/-- C1. In the rule table the compiler-directive rule (type `e4`) is declared at
index 24 and the block-comment rule (type `c1`) at index 26. On `{$IFDEF DEBUG}`
each of the two rules yields one Match, [0,14), the whole input, and the token
stream is the single `e4` token; on `{ a plain comment }` the directive rule
yields no Match, the block-comment rule yields one Match, [0,19), the whole
input, and the token stream is the single `c1` token. The shared fragments are a
parameter: those declared before the winning rule are assumed to put no Match
at offset 0 of the input. -/
theorem directive_versus_comment (lib : CommonRules)
    (hd : ∀ ir ∈ commonSlots lib, ir.1 < 24 →
      ∀ m ∈ scanRule ir.2 ir.1 directiveInput, m.start ≠ 0)
    (hc : ∀ ir ∈ commonSlots lib, ir.1 < 26 →
      ∀ m ∈ scanRule ir.2 ir.1 commentInput, m.start ≠ 0) :
    (setupLanguage lib)[24]? = some compilerDirectives ∧
    (setupLanguage lib)[26]? = some blockComments ∧
    directiveInput.length = 14 ∧
    scanRule compilerDirectives 24 directiveInput =
      [{ start := 0, stop := 14, type := "e4", rule := 24 }] ∧
    scanRule blockComments 26 directiveInput =
      [{ start := 0, stop := 14, type := "c1", rule := 26 }] ∧
    tokenize lib directiveInput = [{ start := 0, stop := 14, type := some "e4" }] ∧
    commentInput.length = 19 ∧
    scanRule compilerDirectives 24 commentInput = [] ∧
    scanRule blockComments 26 commentInput =
      [{ start := 0, stop := 19, type := "c1", rule := 26 }] ∧
    tokenize lib commentInput = [{ start := 0, stop := 19, type := some "c1" }] := by
  refine ⟨rfl, rfl, by decide, by decide!, by decide!, ?_, by decide, by decide!, by decide!, ?_⟩
  · exact tokenize_whole_text lib directiveInput
      { start := 0, stop := 14, type := "e4", rule := 24 } (by decide)
      ⟨(24, compilerDirectives), by simp [authoredRules], by decide!⟩ rfl (by decide) hd
      (by decide!)
  · exact tokenize_whole_text lib commentInput
      { start := 0, stop := 19, type := "c1", rule := 26 } (by decide)
      ⟨(26, blockComments), by simp [authoredRules], by decide!⟩ rfl (by decide) hc
      (by decide!)

/-- C1, with the sample fragment library in place of the parameter. -/
theorem directive_versus_comment_witness :
    (∀ ir ∈ commonSlots sampleCommonRules, ir.1 < 24 →
      ∀ m ∈ scanRule ir.2 ir.1 directiveInput, m.start ≠ 0) ∧
    (∀ ir ∈ commonSlots sampleCommonRules, ir.1 < 26 →
      ∀ m ∈ scanRule ir.2 ir.1 commentInput, m.start ≠ 0) ∧
    tokenize sampleCommonRules directiveInput =
      [{ start := 0, stop := 14, type := some "e4" }] ∧
    tokenize sampleCommonRules commentInput =
      [{ start := 0, stop := 19, type := some "c1" }] :=
  ⟨by decide!, by decide!,
    (directive_versus_comment sampleCommonRules (by decide!) (by decide!)).2.2.2.2.2.1,
    (directive_versus_comment sampleCommonRules (by decide!) (by decide!)).2.2.2.2.2.2.2.2.2⟩

/-- C5 (the code at the witness input). In `procedure Foo(const A: Integer);` the
word `const` at [14,19) stands inside brackets. The initialization rule (index 8,
type `k2`) and the qualifier rule (index 18, type `k8`) both yield the Match
[14,19). Whatever the shared fragments are, the merge never selects the `k8`
Match, at any offset; with the sample fragments the token of `const` is `k2`. -/
theorem qualifier_shadowed_by_initialization (lib : CommonRules) :
    (setupLanguage lib)[8]? = some initialization ∧
    (setupLanguage lib)[18]? = some qualifiers ∧
    scanRule initialization 8 qualifierInput =
      [{ start := 14, stop := 19, type := "k2", rule := 8 }] ∧
    scanRule qualifiers 18 qualifierInput =
      [{ start := 14, stop := 19, type := "k8", rule := 18 }] ∧
    (∀ pos, pick (candidates (scan (setupLanguage lib) qualifierInput).flatten pos) ≠
      some { start := 14, stop := 19, type := "k8", rule := 18 }) ∧
    tokenize sampleCommonRules qualifierInput =
      [ { start := 0, stop := 9, type := some "k0" },
        { start := 9, stop := 10, type := none },
        { start := 10, stop := 13, type := some "m0" },
        { start := 13, stop := 14, type := some "g1" },
        { start := 14, stop := 19, type := some "k2" },
        { start := 19, stop := 23, type := none },
        { start := 23, stop := 30, type := some "k5" },
        { start := 30, stop := 31, type := some "g1" },
        { start := 31, stop := 32, type := none } ] := by
  refine ⟨rfl, rfl, by decide!, by decide!, ?_, by decide!⟩
  intro pos h
  have h1 := pick_mem _ _ h
  simp only [candidates, List.mem_filter, Bool.and_eq_true, decide_eq_true_eq] at h1
  have hmem : ({ start := 14, stop := 19, type := "k2", rule := 8 } : Match) ∈
      candidates (scan (setupLanguage lib) qualifierInput).flatten pos := by
    simp only [candidates, List.mem_filter, Bool.and_eq_true, decide_eq_true_eq]
    exact ⟨(mem_scan_setupLanguage lib _ _).2
      (Or.inr ⟨(8, initialization), by simp [authoredRules], by decide!⟩), h1.2.1, by omega⟩
  have h2 := pick_min _ _ h _ hmem
  exact absurd h2 (by decide)


end delphi
